import Mathlib

/-!
Verification development for the `meet.tf` S-transform module.

The module computes the general Fourier family transform (`gft`) of a discrete
signal together with two frequency sampling schemes (`_dyadic`, `_full_sampling`)
and an interpolation step (`interpolate_gft`).  The embedding below has two
layers sharing the same band layout and index arithmetic:

* a computable structural layer over `ℤ`/`ℚ` (sampling schemes, band layouts,
  the selected bin indices of each band, and the `(frequency, time)` coordinate
  list `Coords`), and
* a value layer over `ℂ` for the transform samples themselves (detrending,
  Hanning tapering, Hilbert transform, DFT, Gaussian window spectra).

Machine floats of the source are modelled by exact arithmetic; the integer-valued
float expressions of the source (`int(0.1*N)`, `int(np.ceil(np.log2(N)))`,
`(1.5*f_start+1).astype(int)`) are modelled by the integer functions they compute
on the relevant ranges (`N/10`, `Nat.clog 2 N`, `(3*s+2)/2`).
-/

namespace Meet

/-- Model of `numpy.fft.fftfreq(N, d=1./N)`: the integer FFT bin frequencies
`0, 1, ..., ⌈N/2⌉-1, -⌊N/2⌋, ..., -1` in FFT order. -/
def fftfreq (N : ℕ) : List ℤ :=
  (List.range N).map (fun i : ℕ => if i < (N + 1) / 2 then (i : ℤ) else (i : ℤ) - N)

/-- Model of `numpy.roll(xs, s)` for a one dimensional array: the result has
`xs[(i - s) mod len]` at position `i`. -/
def nproll {α : Type} (xs : List α) (s : ℤ) : List α :=
  xs.rotate (((-s) % (xs.length : ℤ)).toNat)

/-- Minimum of an integer list, as `numpy.min` (junk value `0` on the empty
list, which numpy rejects; all uses are on nonempty lists). -/
def intMin : List ℤ → ℤ
  | [] => 0
  | x :: xs => xs.foldl min x

/-- Maximum of an integer list, as `numpy.max` (junk value `0` on `[]`). -/
def intMax : List ℤ → ℤ
  | [] => 0
  | x :: xs => xs.foldl max x

/-- Translation of `_dyadic(N)` from `src/meet/tf.py`: start frequencies
`[0] ++ [2^j for j < ceil(log2 N) - 1]`, centres `np.where(s < 2, s+1,
int(1.5*s+1))`, widths `np.where(s < 2, 1, s)`, ends
`np.where(s+w <= N, s+w, N)`.  Returns `(f_centre, f_start, f_end)`. -/
def dyadic (N : ℕ) : List ℤ × List ℤ × List ℤ :=
  let f_start : List ℤ := 0 :: (List.range (Nat.clog 2 N - 1)).map (fun j : ℕ => (2 : ℤ) ^ j)
  let f_centre := f_start.map (fun s => if s < 2 then s + 1 else (3 * s + 2) / 2)
  let f_width := f_start.map (fun s => if s < 2 then (1 : ℤ) else s)
  let f_end := List.zipWith (fun s w => if s + w ≤ (N : ℤ) then s + w else (N : ℤ)) f_start f_width
  (f_centre, f_start, f_end)

/-- Translation of `_full_sampling(N)` from `src/meet/tf.py`: centres are the
sorted FFT bin frequencies, all starts are `min - 1`, all ends are `max + 1`.
Returns `(f_centre, f_start, f_end)`. -/
def full_sampling (N : ℕ) : List ℤ × List ℤ × List ℤ :=
  let f_centre := (fftfreq N).insertionSort (fun a b => a ≤ b)
  let f_start := f_centre.map (fun _ => intMin f_centre - 1)
  let f_end := f_centre.map (fun _ => intMax f_centre + 1)
  (f_centre, f_start, f_end)

/-- One analysis band of the transform: centre, start and end frequency. -/
structure Band where
  centre : ℤ
  fstart : ℤ
  fend : ℤ
deriving DecidableEq, Repr

/-- Failure modes of `gft`, named after the specification's error kinds.  In the
source they surface as numpy/scipy exceptions: a broadcasting `ValueError` for
the taper shape mismatch, a `TypeError` when an unrecognized sampling-scheme
string is called, and a `ValueError`/`ZeroDivisionError` when a band selects no
bins. -/
inductive GftError where
  | taperShapeMismatch
  | unsupportedSamplingScheme
  | emptyBand
deriving DecidableEq, Repr

instance {ε α : Type} [DecidableEq ε] [DecidableEq α] : DecidableEq (Except ε α) := fun a b =>
  match a, b with
  | Except.error e, Except.error f =>
    if h : e = f then Decidable.isTrue (by rw [h])
    else Decidable.isFalse (by intro hc; injection hc; exact h (by assumption))
  | Except.error _, Except.ok _ => Decidable.isFalse (by intro hc; injection hc)
  | Except.ok _, Except.error _ => Decidable.isFalse (by intro hc; injection hc)
  | Except.ok v, Except.ok w =>
    if h : v = w then Decidable.isTrue (by rw [h])
    else Decidable.isFalse (by intro hc; injection hc; exact h (by assumption))

/-- Band assembly of `gft` (lines 147-158 of tf.py) applied to a sampling
scheme result `(f_centre, f_start, f_end)`: the `full == False` centre filter
for full sampling, the negative-frequency mirroring when all centres are
nonnegative, and the per-index reading of the three arrays by the band loop.
Mirroring duplicates only the filtered centre list while starts/ends come from
the scheme unchanged, exactly as in the source. -/
def mirrorBands (sampling : String) (full : Bool) (sch : List ℤ × List ℤ × List ℤ) :
    List Band :=
  let c0 := sch.1
  let s0 := sch.2.1
  let e0 := sch.2.2
  let c1 := if sampling = "full" ∧ full = false then c0.filter (fun c => 0 ≤ c) else c0
  let p :=
    if full = true ∧ 0 ≤ intMin c1 then
      if c1.headD 0 = 0 then
        (c1 ++ (c1.drop 1).reverse.map (fun x => -x),
         s0 ++ (s0.drop 1).reverse.map (fun x => -x),
         e0 ++ (e0.drop 1).reverse.map (fun x => -x))
      else
        (c1.reverse.map (fun x => -x) ++ c1,
         s0.reverse.map (fun x => -x) ++ s0,
         e0.reverse.map (fun x => -x) ++ e0)
    else (c1, s0, e0)
  (List.range p.1.length).map (fun k => ⟨p.1.getD k 0, p.2.1.getD k 0, p.2.2.getD k 0⟩)

/-- Band layout computed by `gft` (lines 139-158 of tf.py): string dispatch of
the sampling scheme (an unrecognized name leaves the string in place and the
call `sampling(N)` raises), then filtering/mirroring by `mirrorBands`. -/
def gftLayout (N : ℕ) (sampling : String) (full : Bool) : Except GftError (List Band) :=
  if sampling = "dyadic" then Except.ok (mirrorBands sampling full (dyadic N))
  else if sampling = "full" then Except.ok (mirrorBands sampling full (full_sampling N))
  else Except.error GftError.unsupportedSamplingScheme

/-- Bin membership test of band `k` (lines 163-168 of tf.py): against `[s, e)`
ordinarily, against the complement-style wrap range when `s > e`. -/
def bandPred (s e f : ℤ) : Bool :=
  if e < s then decide (f < s ∧ e ≤ f) else decide (s ≤ f ∧ f < e)

/-- The selected positions `indices` of band `b`: positions of the frequency
array, circularly shifted so the band centre aligns with index 0, whose value
lies in the band's range. -/
def bandIdx (N : ℕ) (b : Band) : List ℕ :=
  (List.range N).filter (fun i => bandPred b.fstart b.fend ((nproll (fftfreq N) (-b.centre)).getD i 0))

/-- Taper length of the source (lines 124-126): `int(0.1*N)` — which equals
`N / 10` for all relevant `N` — rounded up to the next even number. -/
def hannN (N : ℕ) : ℕ :=
  let h := N / 10
  if h % 2 ≠ 0 then h + 1 else h

/-- Length of the python slice `xs[-m:]` of a list of length `L`.  When `m = 0`
the slice `xs[-0:]` is the whole list. -/
def pyTailLen (L m : ℕ) : ℕ :=
  if m = 0 then L else min m L

/-- The trailing taper multiplication `hann[-hann_N/2:] * sig[-hann_N/2:]`
succeeds exactly when both slices have the same length. -/
def taperOk (N : ℕ) : Bool :=
  let m := hannN N / 2
  pyTailLen N m == pyTailLen (hannN N) m

/-- Time coordinates of a band with `M` output samples (line 185-186 of tf.py):
`arange(0, N, t_step) + t_step/2` with `t_step = N / M`. -/
def bandTimes (N M : ℕ) : List ℚ :=
  (List.range M).map (fun i : ℕ => (i : ℚ) * ((N : ℚ) / M) + ((N : ℚ) / M) / 2)

/-- Structural layer of `gft`: the `(frequency, time)` coordinate columns of
`Coords` for a signal of length `N`, or the error the run fails with.  It keeps
the source's control flow: the Hanning taper is applied (and can fail) before
the sampling-scheme dispatch, and a band selecting no bins fails the run
(`ifft` of an empty array, or the `t_step` division by zero for a DC band). -/
def gftCoords (N : ℕ) (sampling : String) (full hanning : Bool) :
    Except GftError (List (ℤ × ℚ)) := do
  if hanning = true ∧ taperOk N = false then Except.error GftError.taperShapeMismatch
  else do
    let bands ← gftLayout N sampling full
    let coords ← bands.mapM (fun b =>
      let M := (bandIdx N b).length
      if M = 0 then Except.error GftError.emptyBand
      else Except.ok ((bandTimes N M).map (fun t => (b.centre, t))))
    Except.ok coords.flatten

/-! ### Value layer: the complex transform samples -/

/-- Mean of a complex signal, `sig.mean(axis=0)` for a 1-D signal. -/
noncomputable def cmean (xs : List ℂ) : ℂ := xs.sum / (xs.length : ℂ)

/-- Model of `scipy.signal.detrend(sig, type='constant')`: subtract the mean. -/
noncomputable def detrend (xs : List ℂ) : List ℂ := xs.map (fun z => z - cmean xs)

/-- Model of `scipy.signal.hanning(M)`: `0.5 - 0.5*cos(2*pi*n/(M-1))`.  The
source only uses even lengths `M`, so the `M = 1` special case of scipy never
arises. -/
noncomputable def hannWin (M : ℕ) : List ℂ :=
  (List.range M).map (fun n : ℕ =>
    ((1 / 2 - 1 / 2 * Real.cos (2 * Real.pi * n / ((M : ℝ) - 1)) : ℝ) : ℂ))

/-- The in-place taper of lines 128-130 of tf.py for a 1-D signal: multiply the
first `hann_N/2` samples by the rising half of the Hanning window, then the
trailing python slice `sig[-hann_N/2:]` by `hann[-hann_N/2:]`.  When the slice
lengths disagree (the `hann_N = 0` case, where `sig[-0:]` is the whole signal
and the window slice is empty) numpy raises, modelled as an error. -/
noncomputable def applyHanning (sig : List ℂ) : Except GftError (List ℂ) :=
  let N := sig.length
  let hN := hannN N
  let m := hN / 2
  let w := hannWin hN
  let sig1 := (List.zipWith (fun a b => a * b) (w.take m) (sig.take m)) ++ sig.drop m
  let tailS := if m = 0 then sig1 else sig1.drop (N - m)
  let tailW := if m = 0 then w else w.drop (hN - m)
  if tailS.length = tailW.length then
    Except.ok ((sig1.take (N - tailS.length)) ++ List.zipWith (fun a b => a * b) tailW tailS)
  else Except.error GftError.taperShapeMismatch

/-- Model of `numpy.fft.fft` along axis 0 for a 1-D signal:
`X k = ∑ j, x j * exp(-2*pi*I*j*k/N)`. -/
noncomputable def dft (xs : List ℂ) : List ℂ :=
  (List.range xs.length).map (fun k : ℕ =>
    ((List.range xs.length).map (fun j : ℕ =>
      xs.getD j 0 * Complex.exp (-(2 * Real.pi * Complex.I * j * k) / xs.length))).sum)

/-- Model of `numpy.fft.ifft`: `x j = (∑ k, X k * exp(2*pi*I*j*k/N)) / N`. -/
noncomputable def idft (xs : List ℂ) : List ℂ :=
  (List.range xs.length).map (fun j : ℕ =>
    ((List.range xs.length).map (fun k : ℕ =>
      xs.getD k 0 * Complex.exp ((2 * Real.pi * Complex.I * j * k) / xs.length))).sum / xs.length)

/-- Spectral coefficients of `scipy.signal.hilbert`: double the positive
frequencies, keep bins `0` (and `N/2` for even `N`), zero the negatives. -/
def hilbertCoef (N i : ℕ) : ℂ :=
  if i = 0 then 1 else if 2 * i < N then 2 else if 2 * i = N then 1 else 0

/-- Model of `scipy.signal.hilbert`: the analytic signal via the FFT. -/
noncomputable def hilbert (xs : List ℂ) : List ℂ :=
  idft ((List.range xs.length).map (fun i => hilbertCoef xs.length i * (dft xs).getD i 0))

/-- Translation of `_gaussian_ft(N, f)`: `exp(x**2 * -1*2*pi**2/float(f**2))`
over the FFT bin frequencies `x`. -/
noncomputable def gaussian_ft (N : ℕ) (f : ℤ) : List ℂ :=
  (fftfreq N).map (fun x : ℤ =>
    Complex.exp ((x : ℂ) ^ 2 * (-1) * 2 * ((Real.pi : ℂ)) ^ 2 / ((f : ℂ) ^ 2)))

/-- The predicate `np.all(np.isreal(sig))` of line 136. -/
def allReal (xs : List ℂ) : Prop := ∀ z ∈ xs, z.im = 0

noncomputable instance : DecidablePred allReal := fun _ => Classical.propDecidable _

/-- The output samples of one band (lines 169-184 of tf.py): a DC band
broadcasts the signal mean over the selected index count; any other band
multiplies the rolled signal spectrum with the window spectrum at the selected
indices and inverse-transforms that segment. -/
noncomputable def gftBandValues (N : ℕ) (F : List ℂ) (sigMean : ℂ)
    (window : ℕ → ℤ → List ℂ) (b : Band) : List ℂ :=
  let idx := bandIdx N b
  if b.centre = 0 then List.replicate idx.length sigMean
  else
    let win := window N b.centre
    let Fr := nproll F (-b.centre)
    idft (idx.map (fun i => Fr.getD i 0 * win.getD i 0))

/-- Value layer of `gft` for a 1-D signal: the list of `(centre, samples)`
pairs, one per band in band order (`S` is their concatenation, `Coords` is
computed by `gftCoords` over the same layout and index counts).  The pipeline
follows the source: detrend, optional taper, the analytic signal when negative
frequencies are not requested and the signal is real, the retained
pre-transform mean, the FFT, then the per-band loop. -/
noncomputable def gft (sig : List ℂ) (window : ℕ → ℤ → List ℂ) (sampling : String)
    (full hanning : Bool) : Except GftError (List (ℤ × List ℂ)) := do
  let N := sig.length
  let sig1 := detrend sig
  let sig2 ← if hanning = true then applyHanning sig1 else Except.ok sig1
  let sig3 := if full = false ∧ allReal sig2 then hilbert sig2 else sig2
  let sigMean := cmean sig3
  let F := dft sig3
  let bands ← gftLayout N sampling full
  bands.mapM (fun b =>
    if (bandIdx N b).length = 0 then Except.error GftError.emptyBand
    else Except.ok (b.centre, gftBandValues N F sigMean window b))

/-! ### Interpolation layer: `interpolate_gft` -/

/-- Interpolation kinds accepted for either axis. -/
inductive InterpKind where
  | nearest
  | linear
deriving DecidableEq, Repr

/-- Piecewise linear interpolant through `(x, y)` pairs with strictly
increasing `x`, evaluated inside the sample range (`scipy.interpolate.interp1d`
with `kind='linear'`). -/
def linEval {K : Type} [DivisionRing K] : List (ℚ × K) → ℚ → K
  | [], _ => 0
  | [p], _ => p.2
  | p :: q :: rest, t =>
    if t ≤ q.1 then p.2 + (((t - p.1) / (q.1 - p.1) : ℚ) : K) * (q.2 - p.2)
    else linEval (q :: rest) t

/-- Nearest-neighbour interpolant (`kind='nearest'`): scipy assigns a query
point lying on a midpoint between nodes to the left node. -/
def nearEval {K : Type} [DivisionRing K] : List (ℚ × K) → ℚ → K
  | [], _ => 0
  | [p], _ => p.2
  | p :: q :: rest, t => if t ≤ (p.1 + q.1) / 2 then p.2 else nearEval (q :: rest) t

/-- Evaluate a 1-D interpolant of the given kind. -/
def interpEval {K : Type} [DivisionRing K] (kind : InterpKind) (pts : List (ℚ × K)) (t : ℚ) : K :=
  match kind with
  | InterpKind.nearest => nearEval pts t
  | InterpKind.linear => linEval pts t

/-- Boundary extension of one distinct-frequency run (lines 248-253 of tf.py):
prepend a copy of the first sample at time `0` when the run does not start at
`0`, append a copy of the last sample at time `data_len` when it does not end
there. -/
def extendRun {K : Type} [DivisionRing K] (dataLen : ℚ) (x : List ℚ) (y : List K) :
    List ℚ × List K :=
  let p := if x.headD 1 ≠ 0 then ((0 : ℚ) :: x, y.headD 0 :: y) else (x, y)
  if p.1.getLastD 0 ≠ dataLen then (p.1 ++ [dataLen], p.2 ++ [p.2.getLastD 0]) else p

/-- Distinct values of a list in order of first occurrence: the result of the
source's `np.unique(...)[argsort(first indices)]` recipe. -/
def uniqFirst (l : List ℤ) : List ℤ :=
  l.foldl (fun acc a => if a ∈ acc then acc else acc ++ [a]) []

/-- Partition the flattened `(frequency, time, value)` triples into maximal
runs of equal consecutive frequency (the `np.diff(Coords[0]) != 0` boundaries
of lines 233-234). -/
def splitRuns {K : Type} (l : List (ℤ × ℚ × K)) : List (List (ℤ × ℚ × K)) :=
  l.foldr (fun a gs =>
    match gs with
    | [] => [[a]]
    | g :: rest =>
      match g.headD a with
      | b => if a.1 = b.1 then (a :: g) :: rest else [a] :: g :: rest) []

/-- Model of `numpy.linspace(a, b, n)`: `n` evenly spaced points from `a` to
`b`, endpoint included for `n ≥ 2`. -/
def linspace (a b : ℚ) (n : ℕ) : List ℚ :=
  if n = 0 then []
  else if n = 1 then [a]
  else (List.range n).map (fun i : ℕ => a + i * ((b - a) / ((n : ℚ) - 1)))

/-- Target frequency axis of `interpolate_gft` (lines 238-244): `F` evenly
spaced values from `0` to `int(data_len/2)` when the minimum present frequency
is nonnegative, otherwise from `-int(data_len/2)` to `int(data_len/2)`. -/
def wantedFreqsOf (f : List ℤ) (dataLen F : ℕ) : List ℚ :=
  if 0 ≤ intMin f then linspace 0 ((dataLen / 2 : ℕ) : ℚ) F
  else linspace (-((dataLen / 2 : ℕ) : ℚ)) ((dataLen / 2 : ℕ) : ℚ) F

/-- The query points of the frequency-axis pass (line 260):
`wanted_freqs.clip(f.min(), f.max())`. -/
def freqQueries (f : List ℤ) (dataLen F : ℕ) : List ℚ :=
  (wantedFreqsOf f dataLen F).map
    (fun q => min (max q ((intMin f : ℤ) : ℚ)) ((intMax f : ℤ) : ℚ))

/-- Translation of `interpolate_gft`: two sequential 1-D interpolation passes.
Each distinct-frequency run is boundary-extended and interpolated onto the
target time axis; then, for each target time column, the rows sorted by
frequency are interpolated onto the clipped target frequency axis.  Returns
`(wanted_times, wanted_freqs, IM)` with `IM` as its list of time columns. -/
def interpolate_gft {K : Type} [DivisionRing K] (Coords : List (ℤ × ℚ)) (S : List K)
    (IMshape : ℕ × ℕ) (dataLen : ℕ) (kindf kindt : InterpKind) :
    List ℚ × List ℚ × List (List K) :=
  let f := uniqFirst (Coords.map Prod.fst)
  let runs := splitRuns (List.zipWith (fun c s => (c.1, c.2, s)) Coords S)
  let wantedTimes := linspace 0 (dataLen : ℚ) IMshape.2
  let wantedFreqs := wantedFreqsOf f dataLen IMshape.1
  let rows : List (ℤ × List K) := runs.map (fun r =>
    let xy := extendRun (dataLen : ℚ) (r.map (fun a => a.2.1)) (r.map (fun a => a.2.2))
    ((r.headD (0, 0, 0)).1, wantedTimes.map (fun t => interpEval kindt (xy.1.zip xy.2) t)))
  let sortedRows := rows.insertionSort (fun p q => p.1 ≤ q.1)
  let queries := freqQueries f dataLen IMshape.1
  let IMcols := (List.range IMshape.2).map (fun k =>
    queries.map (fun q =>
      interpEval kindf (sortedRows.map (fun p => ((p.1 : ℚ), p.2.getD k 0))) q))
  (wantedTimes, wantedFreqs, IMcols)

/-! ### Generic list helpers -/

theorem getD_map_range {α : Type} (f : ℕ → α) (d : α) {k N : ℕ} (h : k < N) :
    (((List.range N).map f).getD k d) = f k := by
  rw [List.getD_eq_getElem?_getD, List.getElem?_map, List.getElem?_range h]
  rfl

theorem range_map_getD {α : Type} (r : List α) (d : α) :
    (List.range r.length).map (fun i => r.getD i d) = r := by
  induction r with
  | nil => rfl
  | cons a t ih =>
    rw [List.length_cons, List.range_succ_eq_map, List.map_cons, List.map_map]
    simp only [List.getD_cons_zero, Function.comp_def, List.getD_cons_succ]
    rw [ih]

theorem getD_zero_of_forall {l : List ℂ} (h : ∀ x ∈ l, x = 0) (k : ℕ) : l.getD k 0 = 0 := by
  rw [List.getD_eq_getElem?_getD]
  cases hg : l[k]? with
  | none => rfl
  | some x => exact h x (List.getElem?_mem hg)

theorem except_bind_error {ε α β : Type} (e : ε) (k : α → Except ε β) :
    ((Except.error e : Except ε α) >>= k) = Except.error e := rfl

theorem except_bind_ok {ε α β : Type} (a : α) (k : α → Except ε β) :
    ((Except.ok a : Except ε α) >>= k) = k a := rfl

theorem except_map_error {ε α β : Type} (e : ε) (f : α → β) :
    (f <$> (Except.error e : Except ε α)) = Except.error e := rfl

theorem except_map_ok {ε α β : Type} (a : α) (f : α → β) :
    (f <$> (Except.ok a : Except ε α)) = Except.ok (f a) := rfl

theorem exceptMap_ok {ε α β : Type} (f : α → β) (a : α) :
    Except.map f (Except.ok a : Except ε α) = Except.ok (f a) := rfl

theorem exceptMap_error {ε α β : Type} (f : α → β) (e : ε) :
    Except.map f (Except.error e : Except ε α) = Except.error e := rfl

theorem mapM_ok_of_forall {α β : Type} {f : α → Except GftError β} {g : α → β}
    (l : List α) (h : ∀ a ∈ l, f a = Except.ok (g a)) :
    l.mapM f = Except.ok (l.map g) := by
  induction l with
  | nil => rfl
  | cons a t ih =>
    rw [List.mapM_cons, h a (List.mem_cons_self a t),
      ih (fun x hx => h x (List.mem_cons_of_mem a hx)), except_bind_ok, except_bind_ok,
      List.map_cons]
    rfl

theorem mapM_ok_mem {α β : Type} {f : α → Except GftError β} :
    ∀ {l : List α} {l' : List β}, l.mapM f = Except.ok l' →
      ∀ b ∈ l', ∃ a ∈ l, f a = Except.ok b := by
  intro l
  induction l with
  | nil => intro l' h b hb; simp only [List.mapM_nil] at h; cases h; simp at hb
  | cons a t ih =>
    intro l' h b hb
    rw [List.mapM_cons] at h
    cases hfa : f a with
    | error e => rw [hfa, except_bind_error] at h; cases h
    | ok v =>
      rw [hfa, except_bind_ok] at h
      cases hft : t.mapM f with
      | error e => rw [hft, except_bind_error] at h; cases h
      | ok vs =>
        rw [hft, except_bind_ok] at h
        have hv : v :: vs = l' := by
          have := h
          simp only [pure, Except.pure, Except.ok.injEq] at this
          exact this
        subst hv
        rcases List.mem_cons.1 hb with hb | hb
        · exact ⟨a, List.mem_cons_self a t, by rw [hfa, hb]⟩
        · rcases ih hft b hb with ⟨x, hx, hfx⟩
          exact ⟨x, List.mem_cons_of_mem a hx, hfx⟩

theorem mapM_congr {α β : Type} {f g : α → Except GftError β} :
    ∀ {l : List α}, (∀ a ∈ l, f a = g a) → l.mapM f = l.mapM g := by
  intro l
  induction l with
  | nil => intro _; rfl
  | cons a t ih =>
    intro h
    rw [List.mapM_cons, List.mapM_cons, h a (List.mem_cons_self a t),
      ih (fun x hx => h x (List.mem_cons_of_mem a hx))]

theorem telescope_list (g : ℕ → ℤ) : ∀ n : ℕ,
    ((List.range n).map (fun j => g (j + 1) - g j)).sum = g n - g 0 := by
  intro n
  induction n with
  | zero => simp
  | succ m ih =>
    rw [List.range_succ, List.map_append, List.sum_append, ih]
    simp only [List.map_cons, List.map_nil, List.sum_cons, List.sum_nil, add_zero]
    ring

/-! ### The FFT bin list and interval counting -/

/-- The sorted FFT bin frequencies `-⌊N/2⌋, ..., ⌈N/2⌉-1` as a map over
`range N`. -/
def linRange (N : ℕ) : List ℤ := (List.range N).map (fun i : ℕ => (i : ℤ) - ((N / 2 : ℕ) : ℤ))

theorem fftfreq_mem {N : ℕ} {f : ℤ} :
    f ∈ fftfreq N ↔ -((N / 2 : ℕ) : ℤ) ≤ f ∧ f < (((N + 1) / 2 : ℕ) : ℤ) := by
  unfold fftfreq
  rw [List.mem_map]
  constructor
  · rintro ⟨i, hi, rfl⟩
    rw [List.mem_range] at hi
    split <;> rename_i h <;> omega
  · rintro ⟨h1, h2⟩
    by_cases h0 : 0 ≤ f
    · refine ⟨f.toNat, ?_, ?_⟩
      · rw [List.mem_range]; omega
      · rw [if_pos (by omega)]; omega
    · refine ⟨(f + N).toNat, ?_, ?_⟩
      · rw [List.mem_range]; omega
      · rw [if_neg (by omega)]; omega

theorem fftfreq_nodup (N : ℕ) : (fftfreq N).Nodup := by
  unfold fftfreq
  refine List.Nodup.map_on ?_ (List.nodup_range N)
  intro i hi j hj hij
  rw [List.mem_range] at hi hj
  by_cases h1 : i < (N + 1) / 2 <;> by_cases h2 : j < (N + 1) / 2 <;>
    simp only [if_pos, if_neg, h1, h2, if_true, if_false] at hij <;> omega

theorem linRange_mem {N : ℕ} {f : ℤ} :
    f ∈ linRange N ↔ -((N / 2 : ℕ) : ℤ) ≤ f ∧ f < (((N + 1) / 2 : ℕ) : ℤ) := by
  unfold linRange
  rw [List.mem_map]
  constructor
  · rintro ⟨i, hi, rfl⟩
    rw [List.mem_range] at hi
    omega
  · rintro ⟨h1, h2⟩
    exact ⟨(f + (N / 2 : ℕ)).toNat, by rw [List.mem_range]; omega, by omega⟩

theorem linRange_nodup (N : ℕ) : (linRange N).Nodup := by
  unfold linRange
  refine List.Nodup.map_on ?_ (List.nodup_range N)
  intro i _ j _ h
  omega

theorem linRange_sorted (N : ℕ) : List.Sorted (fun a b : ℤ => a ≤ b) (linRange N) := by
  unfold linRange List.Sorted
  refine List.Pairwise.map _ ?_ (List.pairwise_lt_range N)
  intro a b h
  omega

theorem linRange_perm_fftfreq (N : ℕ) : (linRange N).Perm (fftfreq N) := by
  rw [List.perm_ext_iff_of_nodup (linRange_nodup N) (fftfreq_nodup N)]
  intro a
  rw [linRange_mem, fftfreq_mem]

theorem insertionSort_fftfreq (N : ℕ) :
    (fftfreq N).insertionSort (fun a b : ℤ => a ≤ b) = linRange N := by
  refine List.eq_of_perm_of_sorted ?_ (List.sorted_insertionSort _ _) (linRange_sorted N)
  exact ((List.perm_insertionSort _ _).trans (linRange_perm_fftfreq N).symm)

theorem countP_range_int (a b : ℤ) : ∀ N : ℕ,
    (List.range N).countP (fun i : ℕ => decide (a ≤ (i : ℤ) ∧ (i : ℤ) < b)) =
      (min b N - max a 0).toNat := by
  intro N
  induction N with
  | zero => simp; omega
  | succ m ih =>
    rw [List.range_succ, List.countP_append, ih, List.countP_cons, List.countP_nil]
    simp only [decide_eq_true_eq]
    by_cases h : a ≤ (m : ℤ) ∧ (m : ℤ) < b
    · rw [if_pos h]; omega
    · rw [if_neg h]; omega

/-- Counting the FFT bins inside an integer interval `[a, b)`. -/
theorem countP_fftfreq_Ico (N : ℕ) (a b : ℤ) :
    (fftfreq N).countP (fun f => decide (a ≤ f ∧ f < b)) =
      (min b (((N + 1) / 2 : ℕ) : ℤ) - max a (-((N / 2 : ℕ) : ℤ))).toNat := by
  rw [← (linRange_perm_fftfreq N).countP_eq]
  unfold linRange
  rw [List.countP_map]
  have hcong : ((fun f : ℤ => decide (a ≤ f ∧ f < b)) ∘ fun i : ℕ => (i : ℤ) - ((N / 2 : ℕ) : ℤ)) =
      fun i : ℕ => decide (a + (N / 2 : ℕ) ≤ (i : ℤ) ∧ (i : ℤ) < b + (N / 2 : ℕ)) := by
    funext i
    simp only [Function.comp_apply, decide_eq_decide]
    omega
  rw [hcong, countP_range_int]
  omega

/-! ### Band index counts -/

theorem getD_map_lt {α β : Type} (f : α → β) (l : List α) (d : β) (d2 : α) {k : ℕ}
    (h : k < l.length) : (l.map f).getD k d = f (l.getD k d2) := by
  rw [List.getD_eq_getElem?_getD, List.getElem?_map, List.getElem?_eq_getElem h,
    List.getD_eq_getElem?_getD, List.getElem?_eq_getElem h]
  rfl

theorem nproll_length {α : Type} (xs : List α) (s : ℤ) : (nproll xs s).length = xs.length :=
  List.length_rotate xs _

theorem countP_getD_eq {α : Type} (p : α → Bool) (r : List α) (d : α) :
    (List.range r.length).countP (fun i => p (r.getD i d)) = r.countP p := by
  conv_rhs => rw [← range_map_getD r d]
  rw [List.countP_map]
  rfl

theorem fftfreq_length (N : ℕ) : (fftfreq N).length = N := by
  unfold fftfreq; rw [List.length_map, List.length_range]

theorem bandIdx_length_eq (N : ℕ) (b : Band) :
    (bandIdx N b).length = (fftfreq N).countP (fun f => bandPred b.fstart b.fend f) := by
  unfold bandIdx
  rw [← List.countP_eq_length_filter]
  have key := countP_getD_eq (fun f => bandPred b.fstart b.fend f)
    (nproll (fftfreq N) (-b.centre)) 0
  rw [nproll_length, fftfreq_length] at key
  rw [key]
  have hperm : (nproll (fftfreq N) (-b.centre)).Perm (fftfreq N) := by
    unfold nproll
    exact List.rotate_perm _ _
  exact hperm.countP_eq _

theorem countP_bandPred_straight {s e : ℤ} (h : ¬ e < s) (N : ℕ) :
    (fftfreq N).countP (fun f => bandPred s e f) =
      (min e (((N + 1) / 2 : ℕ) : ℤ) - max s (-((N / 2 : ℕ) : ℤ))).toNat := by
  have hp : (fun f => bandPred s e f) = fun f : ℤ => decide (s ≤ f ∧ f < e) := by
    funext f; unfold bandPred; rw [if_neg h]
  rw [hp, countP_fftfreq_Ico]

theorem countP_bandPred_wrap {s e : ℤ} (h : e < s) (N : ℕ) :
    (fftfreq N).countP (fun f => bandPred s e f) =
      (min s (((N + 1) / 2 : ℕ) : ℤ) - max e (-((N / 2 : ℕ) : ℤ))).toNat := by
  have hp : (fun f => bandPred s e f) = fun f : ℤ => decide (e ≤ f ∧ f < s) := by
    funext f
    unfold bandPred
    rw [if_pos h]
    simp only [decide_eq_decide]
    exact and_comm
  rw [hp, countP_fftfreq_Ico]

/-! ### The full sampling layout -/

theorem intMin_spec : ∀ (l : List ℤ), l ≠ [] → intMin l ∈ l ∧ ∀ y ∈ l, intMin l ≤ y := by
  have key : ∀ (t : List ℤ) (x : ℤ),
      t.foldl min x ∈ x :: t ∧ ∀ y ∈ x :: t, t.foldl min x ≤ y := by
    intro t
    induction t with
    | nil =>
      intro x
      refine ⟨List.mem_singleton.2 rfl, ?_⟩
      intro y hy
      rw [List.mem_singleton.1 hy]
      exact le_refl x
    | cons a t ih =>
      intro x
      rcases ih (min x a) with ⟨hmem, hle⟩
      constructor
      · rw [List.foldl_cons]
        rcases List.mem_cons.1 hmem with hh | hh
        · rcases min_cases x a with ⟨he, _⟩ | ⟨he, _⟩
          · exact List.mem_cons.2 (Or.inl (hh.trans he))
          · exact List.mem_cons.2 (Or.inr (List.mem_cons.2 (Or.inl (hh.trans he))))
        · exact List.mem_cons.2 (Or.inr (List.mem_cons.2 (Or.inr hh)))
      · intro y hy
        rw [List.foldl_cons]
        rcases List.mem_cons.1 hy with hyx | hy2
        · rw [hyx]
          exact (hle _ (List.mem_cons_self _ _)).trans (min_le_left x a)
        · rcases List.mem_cons.1 hy2 with hya | hy3
          · rw [hya]
            exact (hle _ (List.mem_cons_self _ _)).trans (min_le_right x a)
          · exact hle y (List.mem_cons_of_mem _ hy3)
  intro l hl
  cases l with
  | nil => exact absurd rfl hl
  | cons x t => exact key t x

theorem intMax_spec : ∀ (l : List ℤ), l ≠ [] → intMax l ∈ l ∧ ∀ y ∈ l, y ≤ intMax l := by
  have key : ∀ (t : List ℤ) (x : ℤ),
      t.foldl max x ∈ x :: t ∧ ∀ y ∈ x :: t, y ≤ t.foldl max x := by
    intro t
    induction t with
    | nil =>
      intro x
      refine ⟨List.mem_singleton.2 rfl, ?_⟩
      intro y hy
      rw [List.mem_singleton.1 hy]
      exact le_refl x
    | cons a t ih =>
      intro x
      rcases ih (max x a) with ⟨hmem, hle⟩
      constructor
      · rw [List.foldl_cons]
        rcases List.mem_cons.1 hmem with hh | hh
        · rcases max_cases x a with ⟨he, _⟩ | ⟨he, _⟩
          · exact List.mem_cons.2 (Or.inl (hh.trans he))
          · exact List.mem_cons.2 (Or.inr (List.mem_cons.2 (Or.inl (hh.trans he))))
        · exact List.mem_cons.2 (Or.inr (List.mem_cons.2 (Or.inr hh)))
      · intro y hy
        rw [List.foldl_cons]
        rcases List.mem_cons.1 hy with hyx | hy2
        · rw [hyx]
          exact (le_max_left x a).trans (hle _ (List.mem_cons_self _ _))
        · rcases List.mem_cons.1 hy2 with hya | hy3
          · rw [hya]
            exact (le_max_right x a).trans (hle _ (List.mem_cons_self _ _))
          · exact hle y (List.mem_cons_of_mem _ hy3)
  intro l hl
  cases l with
  | nil => exact absurd rfl hl
  | cons x t => exact key t x

theorem linRange_ne_nil {N : ℕ} (h : 1 ≤ N) : linRange N ≠ [] := by
  intro hc
  have hthis := congrArg List.length hc
  unfold linRange at hthis
  rw [List.length_map, List.length_range, List.length_nil] at hthis
  omega

theorem intMin_linRange {N : ℕ} (h : 1 ≤ N) : intMin (linRange N) = -((N / 2 : ℕ) : ℤ) := by
  rcases intMin_spec (linRange N) (linRange_ne_nil h) with ⟨hmem, hlb⟩
  have h1 : -((N / 2 : ℕ) : ℤ) ≤ intMin (linRange N) := (linRange_mem.1 hmem).1
  have h2 : intMin (linRange N) ≤ -((N / 2 : ℕ) : ℤ) := by
    refine hlb _ (linRange_mem.2 ⟨le_refl _, ?_⟩)
    omega
  omega

theorem intMax_linRange {N : ℕ} (h : 1 ≤ N) :
    intMax (linRange N) = (((N + 1) / 2 : ℕ) : ℤ) - 1 := by
  rcases intMax_spec (linRange N) (linRange_ne_nil h) with ⟨hmem, hub⟩
  have h1 : intMax (linRange N) < (((N + 1) / 2 : ℕ) : ℤ) := (linRange_mem.1 hmem).2
  have h2 : (((N + 1) / 2 : ℕ) : ℤ) - 1 ≤ intMax (linRange N) := by
    refine hub _ (linRange_mem.2 ⟨?_, ?_⟩) <;> omega
  omega

/-- The band list of full sampling with negative frequencies kept: one band per
sorted FFT bin, all with start `-⌊N/2⌋ - 1` and end `⌈N/2⌉`. -/
def fullBands (N : ℕ) : List Band :=
  (linRange N).map (fun c => ⟨c, -((N / 2 : ℕ) : ℤ) - 1, (((N + 1) / 2 : ℕ) : ℤ)⟩)

theorem linRange_length (N : ℕ) : (linRange N).length = N := by
  unfold linRange; rw [List.length_map, List.length_range]

theorem full_sampling_eq {N : ℕ} (h : 1 ≤ N) :
    full_sampling N = (linRange N,
      (linRange N).map (fun _ => -((N / 2 : ℕ) : ℤ) - 1),
      (linRange N).map (fun _ => (((N + 1) / 2 : ℕ) : ℤ))) := by
  simp only [full_sampling]
  rw [insertionSort_fftfreq, intMin_linRange h, intMax_linRange h]
  refine congrArg _ (congrArg₂ _ ?_ ?_)
  · exact List.map_congr_left (fun a _ => rfl)
  · refine List.map_congr_left (fun a _ => ?_)
    omega

theorem mirrorBands_full {N : ℕ} (h : 1 ≤ N) :
    mirrorBands "full" true (full_sampling N) = fullBands N := by
  rcases Nat.lt_or_ge N 2 with h2 | h2
  · have hN : N = 1 := by omega
    subst hN
    decide
  · simp only [mirrorBands, full_sampling_eq h]
    have hfilter : ¬ (True ∧ true = false) := by simp
    simp only [if_neg hfilter]
    have hneg : ¬ (True ∧ 0 ≤ intMin (linRange N)) := by
      rw [intMin_linRange h]
      intro hc
      have hc2 := hc.2
      omega
    simp only [if_neg hneg]
    have hlen : (linRange N).length = N := linRange_length N
    rw [hlen]
    unfold fullBands
    conv_rhs => rw [← range_map_getD (linRange N) 0]
    rw [hlen, List.map_map]
    refine List.map_congr_left (fun k hk => ?_)
    rw [List.mem_range] at hk
    simp only [Function.comp_apply]
    rw [getD_map_lt _ _ _ 0 (by rw [hlen]; exact hk),
      getD_map_lt _ _ _ 0 (by rw [hlen]; exact hk)]

theorem gftLayout_full {N : ℕ} (h : 1 ≤ N) :
    gftLayout N "full" true = Except.ok (fullBands N) := by
  unfold gftLayout
  rw [if_neg (by decide), if_pos rfl, mirrorBands_full h]

theorem fullBands_count {N : ℕ} (h : 1 ≤ N) :
    ∀ b ∈ fullBands N, (bandIdx N b).length = N := by
  intro b hb
  rcases List.mem_map.1 hb with ⟨c, _, rfl⟩
  rw [bandIdx_length_eq]
  dsimp only
  rw [countP_bandPred_straight (by omega)]
  omega

/-! ### The regular grid of full sampling -/

/-- The common time grid `0.5, 1.5, ..., N - 0.5` of every full-sampling band. -/
def timeGrid (N : ℕ) : List ℚ := (List.range N).map (fun i : ℕ => (i : ℚ) + 1 / 2)

/-- The `(frequency, time)` coordinate grid of the full transform with negative
frequencies kept: every sorted FFT bin paired with every grid time. -/
def fullGrid (N : ℕ) : List (ℤ × ℚ) :=
  (linRange N).flatMap (fun c => (timeGrid N).map (fun t => (c, t)))

theorem timeGrid_length (N : ℕ) : (timeGrid N).length = N := by
  unfold timeGrid; rw [List.length_map, List.length_range]

theorem bandTimes_self {N : ℕ} (h : 1 ≤ N) : bandTimes N N = timeGrid N := by
  unfold bandTimes timeGrid
  refine List.map_congr_left (fun i _ => ?_)
  have hN : ((N : ℚ)) ≠ 0 := Nat.cast_ne_zero.2 (by omega)
  rw [div_self hN]
  ring

theorem gftCoords_full_ok {N : ℕ} (h : 1 ≤ N) {hann : Bool}
    (hg : ¬ (hann = true ∧ taperOk N = false)) :
    gftCoords N "full" true hann = Except.ok (fullGrid N) := by
  unfold gftCoords
  rw [if_neg hg, gftLayout_full h, except_bind_ok]
  have hmap : (fullBands N).mapM (fun b =>
      if (bandIdx N b).length = 0 then (Except.error GftError.emptyBand : Except GftError (List (ℤ × ℚ)))
      else Except.ok ((bandTimes N (bandIdx N b).length).map (fun t => (b.centre, t)))) =
      Except.ok ((fullBands N).map (fun b => (timeGrid N).map (fun t => (b.centre, t)))) := by
    refine mapM_ok_of_forall _ (fun b hb => ?_)
    rw [fullBands_count h b hb, if_neg (by omega), bandTimes_self h]
  rw [hmap, except_bind_ok]
  refine congrArg _ ?_
  unfold fullBands fullGrid
  rw [List.map_map, List.flatMap_def]
  rfl

theorem gftCoords_full_run {N : ℕ} (h : 1 ≤ N) (hann : Bool) :
    gftCoords N "full" true hann = Except.ok (fullGrid N) ∨
      gftCoords N "full" true hann = Except.error GftError.taperShapeMismatch := by
  by_cases hc : hann = true ∧ taperOk N = false
  · right
    unfold gftCoords
    rw [if_pos hc]
  · left
    exact gftCoords_full_ok h hc

theorem fullGrid_length (N : ℕ) : (fullGrid N).length = N * N := by
  unfold fullGrid
  rw [List.length_flatMap]
  have hmap : (linRange N).map (List.length ∘ fun c => (timeGrid N).map (fun t => (c, t))) =
      (linRange N).map (fun _ => N) := by
    refine List.map_congr_left (fun c _ => ?_)
    simp only [Function.comp_apply, List.length_map]
    exact timeGrid_length N
  rw [hmap, List.map_const', List.sum_replicate, linRange_length, smul_eq_mul]

theorem timeGrid_nodup (N : ℕ) : (timeGrid N).Nodup := by
  unfold timeGrid
  refine List.Nodup.map_on ?_ (List.nodup_range N)
  intro i _ j _ h
  have : (i : ℚ) = j := by
    have := congrArg (fun x : ℚ => x - 1 / 2) h
    simpa using this
  exact_mod_cast this

theorem fullGrid_nodup (N : ℕ) : (fullGrid N).Nodup := by
  unfold fullGrid
  rw [List.nodup_flatMap]
  constructor
  · intro c _
    refine List.Nodup.map_on ?_ (timeGrid_nodup N)
    intro t _ t2 _ h
    exact congrArg Prod.snd h
  · have hnd := linRange_nodup N
    refine List.Pairwise.imp ?_ hnd
    intro a b hab
    intro p hpa hpb
    rcases List.mem_map.1 hpa with ⟨t, _, rfl⟩
    rcases List.mem_map.1 hpb with ⟨t2, _, hc⟩
    exact hab (congrArg Prod.fst hc).symm

theorem map_fst_fullGrid (N : ℕ) :
    (fullGrid N).map Prod.fst = (linRange N).flatMap (fun c => List.replicate N c) := by
  unfold fullGrid
  rw [List.map_flatMap]
  refine congrArg _ (funext (fun c => ?_))
  rw [List.map_map]
  have hfst : (Prod.fst ∘ fun t : ℚ => (c, t)) = fun _ => c := rfl
  rw [hfst, List.map_const', timeGrid_length]

theorem count_flatMap_replicate (c : ℤ) (N : ℕ) : ∀ l : List ℤ,
    ((l.flatMap (fun a => List.replicate N a)).count c) = N * l.count c := by
  intro l
  induction l with
  | nil => simp
  | cons a t ih =>
    rw [List.flatMap_cons, List.count_append, ih, List.count_cons, List.count_replicate]
    by_cases hac : (a == c) = true
    · rw [if_pos hac, if_pos hac]
      ring
    · rw [if_neg hac, if_neg hac]
      ring

theorem mem_flatMap_replicate {c : ℤ} {N : ℕ} (h : 1 ≤ N) (l : List ℤ) :
    c ∈ l.flatMap (fun a => List.replicate N a) ↔ c ∈ l := by
  rw [List.mem_flatMap]
  constructor
  · rintro ⟨a, ha, hc⟩
    rw [List.eq_of_mem_replicate hc]
    exact ha
  · intro hc
    exact ⟨c, hc, List.mem_replicate.2 ⟨by omega, rfl⟩⟩

/-! ### Claims C3 and C4 -/

/-- C3: for every signal length `N ≥ 1`, `gft` with `sampling='full'` and
`full=True` produces exactly `N` bands with exactly `N` output samples each
(`M = N*N` total) and identical time coordinates across bands, so the flat
coordinate list is the regular grid `fullGrid N` — every sorted FFT bin paired
with every grid time exactly once, with no interpolation needed.  The run
succeeds outright with `hanning=False`, and whatever coordinates any run
returns are exactly this grid. -/
theorem C3_full_regular_grid : ∀ N : ℕ, 1 ≤ N →
    gftCoords N "full" true false = Except.ok (fullGrid N) ∧
    (∀ hann : Bool, ∀ cs, gftCoords N "full" true hann = Except.ok cs → cs = fullGrid N) ∧
    (∃ bs, gftLayout N "full" true = Except.ok bs ∧ bs.length = N ∧
      ∀ b ∈ bs, (bandIdx N b).length = N ∧ bandTimes N (bandIdx N b).length = timeGrid N) ∧
    (fullGrid N).length = N * N ∧ (fullGrid N).Nodup := by
  intro N h
  have hrun := gftCoords_full_run h
  have hok : gftCoords N "full" true false = Except.ok (fullGrid N) :=
    gftCoords_full_ok h (by intro hc; exact Bool.false_ne_true hc.1)
  refine ⟨hok, ?_, ?_, fullGrid_length N, fullGrid_nodup N⟩
  · intro hann cs hcs
    rcases hrun hann with hr | hr
    · rw [hr] at hcs
      injection hcs with hcs
      exact hcs.symm
    · rw [hr] at hcs
      cases hcs
  · refine ⟨fullBands N, gftLayout_full h, ?_, ?_⟩
    · unfold fullBands
      rw [List.length_map, linRange_length]
    · intro b hb
      refine ⟨fullBands_count h b hb, ?_⟩
      rw [fullBands_count h b hb]
      exact bandTimes_self h

/-- Witness for C3 at the concrete length `N = 2`. -/
theorem C3_full_regular_grid_witness :
    gftCoords 2 "full" true false = Except.ok (fullGrid 2) ∧ (fullGrid 2).length = 2 * 2 :=
  ⟨(C3_full_regular_grid 2 (by decide)).1, (C3_full_regular_grid 2 (by decide)).2.2.2.1⟩

/-- C4 counterexample: with `sampling='full'`, `full=True` and the even length
`N = 4`, the returned coordinates contain the centre frequency `-2` but not its
mirror `+2`, so the claimed mirrored-pair property fails as stated. -/
theorem C4_counterexample :
    gftCoords 4 "full" true false = Except.ok (fullGrid 4) ∧
    (-2 : ℤ) ∈ (fullGrid 4).map Prod.fst ∧ (-2 : ℤ) ≠ 0 ∧
    ¬ ((2 : ℤ) ∈ (fullGrid 4).map Prod.fst) := by
  refine ⟨gftCoords_full_ok (by omega) (by intro hc; exact Bool.false_ne_true hc.1), ?_, ?_, ?_⟩
  · rw [map_fst_fullGrid]
    exact (mem_flatMap_replicate (by omega) _).2 (linRange_mem.2 (by decide))
  · decide
  · rw [map_fst_fullGrid]
    intro hc
    have hmem := (mem_flatMap_replicate (by omega) _).1 hc
    rw [linRange_mem] at hmem
    revert hmem
    decide

/-- C4 (amended): for `sampling='full'` with `full=True`, the mirrored-pair
property holds for every odd signal length `N`: every nonzero centre frequency
`c` of the returned coordinates appears together with `-c`, with equal sample
counts.  (For even `N` the bin `-N/2` has no mirror — see the counterexample —
and dyadic sampling with `full=True` can give unequal counts, e.g. `N = 6`.) -/
theorem C4_mirrored_pairs_odd : ∀ N : ℕ, N % 2 = 1 → ∀ (hann : Bool) cs,
    gftCoords N "full" true hann = Except.ok cs →
    ∀ c ∈ cs.map Prod.fst, c ≠ 0 →
      (-c) ∈ cs.map Prod.fst ∧
      (cs.map Prod.fst).count c = (cs.map Prod.fst).count (-c) := by
  intro N hodd hann cs hcs c hc hc0
  have h1 : 1 ≤ N := by omega
  have hgrid : cs = fullGrid N := by
    rcases gftCoords_full_run h1 hann with hr | hr
    · rw [hr] at hcs
      injection hcs with hcs
      exact hcs.symm
    · rw [hr] at hcs
      cases hcs
  subst hgrid
  rw [map_fst_fullGrid] at hc ⊢
  have hmem : c ∈ linRange N := (mem_flatMap_replicate h1 _).1 hc
  have hmem2 : (-c) ∈ linRange N := by
    rw [linRange_mem] at hmem ⊢
    omega
  refine ⟨(mem_flatMap_replicate h1 _).2 hmem2, ?_⟩
  rw [count_flatMap_replicate, count_flatMap_replicate,
    List.count_eq_one_of_mem (linRange_nodup N) hmem,
    List.count_eq_one_of_mem (linRange_nodup N) hmem2]

/-- Witness for the amended C4 at `N = 3`, `c = 1`. -/
theorem C4_mirrored_pairs_odd_witness :
    (-1 : ℤ) ∈ (fullGrid 3).map Prod.fst ∧
    ((fullGrid 3).map Prod.fst).count 1 = ((fullGrid 3).map Prod.fst).count (-1) :=
  C4_mirrored_pairs_odd 3 (by decide) false (fullGrid 3)
    (gftCoords_full_ok (by omega) (by intro hc; exact Bool.false_ne_true hc.1)) 1
    (by rw [map_fst_fullGrid]
        exact (mem_flatMap_replicate (by omega) _).2 (linRange_mem.2 (by decide)))
    (by decide)

/-! ### The dyadic layout -/

/-- Centre frequency of a dyadic band with start `s`:
`np.where(f_start < 2, f_start + 1, (1.5*f_start + 1).astype(int))`. -/
def cOf (s : ℤ) : ℤ := if s < 2 then s + 1 else (3 * s + 2) / 2

/-- End frequency of a dyadic band with start `s`:
`np.where(f_start + f_width <= N, f_start + f_width, N)`. -/
def eOf (N : ℕ) (s : ℤ) : ℤ :=
  if s + (if s < 2 then 1 else s) ≤ (N : ℤ) then s + (if s < 2 then 1 else s) else (N : ℤ)

theorem dyadic_eq (N : ℕ) :
    dyadic N = (((dyadic N).2.1).map cOf, (dyadic N).2.1, ((dyadic N).2.1).map (eOf N)) := by
  simp only [dyadic]
  refine congrArg₂ _ rfl (congrArg₂ _ rfl ?_)
  rw [List.zipWith_map_right, List.zipWith_same]
  rfl

/-- The dyadic band list as assembled by the band loop with `full=False`. -/
def dyadicBands (N : ℕ) : List Band :=
  ((dyadic N).2.1).map (fun s => ⟨cOf s, s, eOf N s⟩)

theorem assembled_bands (S : List ℤ) (f h3 : ℤ → ℤ) :
    (List.range (S.map f).length).map
      (fun k => (⟨(S.map f).getD k 0, S.getD k 0, (S.map h3).getD k 0⟩ : Band)) =
    S.map (fun s : ℤ => ⟨f s, s, h3 s⟩) := by
  rw [List.length_map]
  conv_rhs => rw [← range_map_getD S (0 : ℤ)]
  rw [List.map_map]
  refine List.map_congr_left (fun k hk => ?_)
  rw [List.mem_range] at hk
  simp only [Function.comp_apply]
  rw [getD_map_lt f S 0 0 hk, getD_map_lt h3 S 0 0 hk]

theorem gftLayout_dyadic (N : ℕ) :
    gftLayout N "dyadic" false = Except.ok (dyadicBands N) := by
  unfold gftLayout
  rw [if_pos rfl]
  simp only [mirrorBands]
  have hfilter : ¬ ("dyadic" = "full" ∧ True) := by simp
  simp only [if_neg hfilter]
  have hmir : ¬ (false = true ∧ 0 ≤ intMin (dyadic N).1) := by
    intro hc
    exact Bool.false_ne_true hc.1
  simp only [if_neg hmir]
  refine congrArg _ ?_
  conv_lhs => rw [dyadic_eq N]
  exact assembled_bands _ cOf (eOf N)

theorem eOf_zero {N : ℕ} (h : 1 ≤ N) : eOf N 0 = 1 := by
  unfold eOf
  rw [if_pos (by norm_num : (0 : ℤ) < 2)]
  rw [if_pos (by exact_mod_cast h : (0 : ℤ) + 1 ≤ (N : ℤ))]
  norm_num

theorem pow_add_width {j : ℕ} :
    (2 : ℤ) ^ j + (if (2 : ℤ) ^ j < 2 then 1 else (2 : ℤ) ^ j) = (2 : ℤ) ^ (j + 1) := by
  rcases Nat.eq_zero_or_pos j with rfl | hj0
  · norm_num
  · rw [if_neg (by
      intro hcon
      have h2 : (2 : ℤ) ^ 1 ≤ (2 : ℤ) ^ j := pow_le_pow_right (by norm_num) (by omega)
      rw [pow_one] at h2
      omega)]
    rw [pow_succ]
    ring

theorem eOf_pow {N : ℕ} {j : ℕ} (hle : (2 : ℕ) ^ (j + 1) ≤ N) :
    eOf N ((2 : ℤ) ^ j) = (2 : ℤ) ^ (j + 1) := by
  unfold eOf
  rw [pow_add_width, if_pos (by exact_mod_cast hle)]

theorem bandIdx_dyadic_zero {N : ℕ} (h : 1 ≤ N) :
    (bandIdx N ⟨cOf 0, 0, eOf N 0⟩).length = 1 := by
  rw [bandIdx_length_eq]
  dsimp only
  rw [eOf_zero h, countP_bandPred_straight (by omega)]
  omega

theorem clog_pred_pow_lt {N : ℕ} (h3 : 3 ≤ N) {j : ℕ} (hj : j < Nat.clog 2 N - 1) :
    (2 : ℕ) ^ (j + 1) < N := by
  have hpow : (2 : ℕ) ^ (Nat.clog 2 N - 1) < N :=
    Nat.pow_pred_clog_lt_self (by norm_num) (by omega)
  have h1 : (2 : ℕ) ^ (j + 1) ≤ 2 ^ (Nat.clog 2 N - 1) :=
    Nat.pow_le_pow_right (by norm_num) (by omega)
  omega

theorem pow_lt_half {N : ℕ} (h3 : 3 ≤ N) {j : ℕ} (hj : j < Nat.clog 2 N - 1) :
    (2 : ℕ) ^ j < (N + 1) / 2 := by
  have hp : (2 : ℕ) ^ (j + 1) < N := clog_pred_pow_lt h3 hj
  have h2 : (2 : ℕ) ^ (j + 1) = 2 * 2 ^ j := by rw [pow_succ]; ring
  omega

theorem bandIdx_dyadic_pow {N : ℕ} (h3 : 3 ≤ N) {j : ℕ} (hj : j < Nat.clog 2 N - 1) :
    (bandIdx N ⟨cOf ((2 : ℤ) ^ j), (2 : ℤ) ^ j, eOf N ((2 : ℤ) ^ j)⟩).length =
      (min ((2 : ℤ) ^ (j + 1)) (((N + 1) / 2 : ℕ) : ℤ) - (2 : ℤ) ^ j).toNat := by
  rw [bandIdx_length_eq]
  dsimp only
  rw [eOf_pow (le_of_lt (clog_pred_pow_lt h3 hj))]
  rw [countP_bandPred_straight (by
    intro hcon
    have hmono : (2 : ℤ) ^ j < (2 : ℤ) ^ (j + 1) :=
      pow_lt_pow_right (by norm_num) (by omega)
    omega)]
  have ha : (0 : ℤ) ≤ (2 : ℤ) ^ j := by positivity
  generalize (2 : ℤ) ^ (j + 1) = B
  generalize hA : (2 : ℤ) ^ j = A at ha
  omega

theorem sum_map_toNat : ∀ l : List ℤ, (∀ x ∈ l, 0 ≤ x) →
    (((l.map Int.toNat).sum : ℕ) : ℤ) = l.sum := by
  intro l
  induction l with
  | nil => intro _; rfl
  | cons a t ih =>
    intro h
    rw [List.map_cons, List.sum_cons, List.sum_cons, Nat.cast_add,
      ih (fun x hx => h x (List.mem_cons_of_mem a hx)),
      Int.toNat_of_nonneg (h a (List.mem_cons_self a t))]

theorem dyadic_count_sum {N : ℕ} (h : 1 ≤ N) :
    ((dyadicBands N).map (fun b => (bandIdx N b).length)).sum = (N + 1) / 2 := by
  unfold dyadicBands
  have hS : (dyadic N).2.1 =
      (0 : ℤ) :: (List.range (Nat.clog 2 N - 1)).map (fun j : ℕ => (2 : ℤ) ^ j) := rfl
  rw [hS, List.map_cons, List.map_cons, List.sum_cons, List.map_map, List.map_map]
  rcases Nat.lt_or_ge N 3 with hsmall | h3
  · have hcl : Nat.clog 2 N - 1 = 0 := by
      rcases (by omega : N = 1 ∨ N = 2) with rfl | rfl
      · rw [Nat.clog_one_right]
      · have h22 : Nat.clog 2 2 = 1 := by
          have := Nat.clog_pow 2 1 (by norm_num)
          rw [pow_one] at this
          exact this
        omega
    rw [hcl]
    simp only [List.range_zero, List.map_nil, List.sum_nil]
    rw [bandIdx_dyadic_zero h]
    omega
  · have hL2 : 2 ≤ Nat.clog 2 N := by
      have h21 := (Nat.pow_lt_iff_lt_clog (by norm_num : (1 : ℕ) < 2)).1
        (show (2 : ℕ) ^ 1 < N by norm_num; omega)
      omega
    set L := Nat.clog 2 N with hLdef
    set H : ℤ := (((N + 1) / 2 : ℕ) : ℤ) with hHdef
    have hmapc : (List.range (L - 1)).map
        (((fun b => (bandIdx N b).length) ∘ fun s : ℤ => (⟨cOf s, s, eOf N s⟩ : Band)) ∘
          fun j : ℕ => (2 : ℤ) ^ j) =
        (List.range (L - 1)).map (fun j : ℕ => (min ((2 : ℤ) ^ (j + 1)) H - (2 : ℤ) ^ j).toNat) := by
      refine List.map_congr_left (fun j hj => ?_)
      rw [List.mem_range] at hj
      exact bandIdx_dyadic_pow h3 hj
    rw [bandIdx_dyadic_zero h, hmapc]
    have hnn : ∀ x ∈ (List.range (L - 1)).map
        (fun j : ℕ => min ((2 : ℤ) ^ (j + 1)) H - (2 : ℤ) ^ j), 0 ≤ x := by
      intro x hx
      rcases List.mem_map.1 hx with ⟨j, hj, rfl⟩
      rw [List.mem_range] at hj
      have h1 : (2 : ℤ) ^ j ≤ (2 : ℤ) ^ (j + 1) := pow_le_pow_right (by norm_num) (by omega)
      have h2 : ((2 : ℕ) ^ j : ℤ) < H := by
        rw [hHdef]
        exact_mod_cast pow_lt_half h3 hj
      push_cast at h2
      exact sub_nonneg.2 (le_min h1 (le_of_lt h2))
    have hcast : ((((List.range (L - 1)).map
        (fun j : ℕ => (min ((2 : ℤ) ^ (j + 1)) H - (2 : ℤ) ^ j).toNat)).sum : ℕ) : ℤ) =
        ((List.range (L - 1)).map (fun j : ℕ => min ((2 : ℤ) ^ (j + 1)) H - (2 : ℤ) ^ j)).sum := by
      have hcomp : (List.range (L - 1)).map
          (fun j : ℕ => (min ((2 : ℤ) ^ (j + 1)) H - (2 : ℤ) ^ j).toNat) =
          ((List.range (L - 1)).map (fun j : ℕ => min ((2 : ℤ) ^ (j + 1)) H - (2 : ℤ) ^ j)).map
            Int.toNat := by
        rw [List.map_map]
        rfl
      rw [hcomp, sum_map_toNat _ hnn]
    have helem : (List.range (L - 1)).map (fun j : ℕ => min ((2 : ℤ) ^ (j + 1)) H - (2 : ℤ) ^ j) =
        (List.range (L - 1)).map (fun j : ℕ =>
          min ((2 : ℤ) ^ (j + 1)) H - min ((2 : ℤ) ^ j) H) := by
      refine List.map_congr_left (fun j hj => ?_)
      rw [List.mem_range] at hj
      have h2 : ((2 : ℕ) ^ j : ℤ) < H := by
        rw [hHdef]
        exact_mod_cast pow_lt_half h3 hj
      push_cast at h2
      have hmj : min ((2 : ℤ) ^ j) H = (2 : ℤ) ^ j := min_eq_left (le_of_lt h2)
      rw [hmj]
    have htel := telescope_list (fun j : ℕ => min ((2 : ℤ) ^ j) H) (L - 1)
    have hg0 : min ((2 : ℤ) ^ 0) H = 1 := by
      rw [pow_zero, hHdef]
      have : 1 ≤ (N + 1) / 2 := by omega
      omega
    have hgL : min ((2 : ℤ) ^ (L - 1)) H = H := by
      have hNle : N ≤ 2 ^ L := Nat.le_pow_clog (by norm_num) N
      have hsplit : (2 : ℕ) ^ L = 2 * 2 ^ (L - 1) := by
        conv_lhs => rw [show L = (L - 1) + 1 by omega]
        rw [pow_succ]
        ring
      have hHle : (N + 1) / 2 ≤ 2 ^ (L - 1) := by omega
      rw [hHdef]
      have hcast2 : (((2 : ℕ) ^ (L - 1) : ℕ) : ℤ) = (2 : ℤ) ^ (L - 1) := by push_cast; rfl
      have := hHle
      omega
    -- assemble in ℤ
    have hfin : ((1 + ((List.range (L - 1)).map
        (fun j : ℕ => (min ((2 : ℤ) ^ (j + 1)) H - (2 : ℤ) ^ j).toNat)).sum : ℕ) : ℤ) = H := by
      rw [Nat.cast_add, Nat.cast_one, hcast, helem, htel, hg0, hgL]
      ring
    have hHnat : H = (((N + 1) / 2 : ℕ) : ℤ) := hHdef
    omega

theorem bandTimes_length (N M : ℕ) : (bandTimes N M).length = M := by
  unfold bandTimes
  rw [List.length_map, List.length_range]

theorem dyadic_start_mem {N : ℕ} {s : ℤ} (hs : s ∈ (dyadic N).2.1) :
    s = 0 ∨ ∃ j : ℕ, j < Nat.clog 2 N - 1 ∧ s = (2 : ℤ) ^ j := by
  have hS : (dyadic N).2.1 =
      (0 : ℤ) :: (List.range (Nat.clog 2 N - 1)).map (fun j : ℕ => (2 : ℤ) ^ j) := rfl
  rw [hS] at hs
  rcases List.mem_cons.1 hs with h0 | hmem
  · exact Or.inl h0
  · rcases List.mem_map.1 hmem with ⟨j, hj, rfl⟩
    rw [List.mem_range] at hj
    exact Or.inr ⟨j, hj, rfl⟩

theorem dyadic_start_nonneg {N : ℕ} {s : ℤ} (hs : s ∈ (dyadic N).2.1) : 0 ≤ s := by
  rcases dyadic_start_mem hs with rfl | ⟨j, _, rfl⟩
  · exact le_refl 0
  · positivity

theorem cOf_nonneg {s : ℤ} (h : 0 ≤ s) : 0 ≤ cOf s := by
  unfold cOf
  split
  · omega
  · exact Int.ediv_nonneg (by omega) (by norm_num)

theorem dyadicBands_count_pos {N : ℕ} (h : 1 ≤ N) :
    ∀ b ∈ dyadicBands N, ¬ (bandIdx N b).length = 0 := by
  intro b hb
  unfold dyadicBands at hb
  rcases List.mem_map.1 hb with ⟨s, hs, rfl⟩
  rcases dyadic_start_mem hs with rfl | ⟨j, hj, rfl⟩
  · rw [bandIdx_dyadic_zero h]
    omega
  · have hL2 : 2 ≤ Nat.clog 2 N := by omega
    have h3 : 3 ≤ N := by
      have h21 := (Nat.pow_lt_iff_lt_clog (by norm_num : (1 : ℕ) < 2)).2
        (show 1 < Nat.clog 2 N by omega)
      norm_num at h21
      omega
    rw [bandIdx_dyadic_pow h3 hj]
    have hmono : (2 : ℤ) ^ j < (2 : ℤ) ^ (j + 1) := by
      rw [pow_succ]
      have hp : (0 : ℤ) < (2 : ℤ) ^ j := by positivity
      omega
    have h2 : ((2 : ℕ) ^ j : ℤ) < (((N + 1) / 2 : ℕ) : ℤ) := by
      exact_mod_cast pow_lt_half h3 hj
    push_cast at h2
    have hpos : 0 < min ((2 : ℤ) ^ (j + 1)) (((N + 1) / 2 : ℕ) : ℤ) - (2 : ℤ) ^ j :=
      sub_pos.2 (lt_min hmono h2)
    generalize min ((2 : ℤ) ^ (j + 1)) (((N + 1) / 2 : ℕ) : ℤ) - (2 : ℤ) ^ j = x at hpos ⊢
    omega

theorem gftCoords_dyadic {N : ℕ} (h : 1 ≤ N) :
    gftCoords N "dyadic" false false = Except.ok
      (((dyadicBands N).map
        (fun b => (bandTimes N (bandIdx N b).length).map (fun t => (b.centre, t)))).flatten) := by
  unfold gftCoords
  rw [if_neg (by intro hc; exact Bool.false_ne_true hc.1), gftLayout_dyadic N, except_bind_ok]
  rw [mapM_ok_of_forall _ (fun b hb => by rw [if_neg (dyadicBands_count_pos h b hb)]),
    except_bind_ok]

theorem gftCoords_dyadic_length {N : ℕ} (h : 1 ≤ N) :
    (gftCoords N "dyadic" false false).map List.length = Except.ok ((N + 1) / 2) := by
  rw [gftCoords_dyadic h, exceptMap_ok]
  refine congrArg _ ?_
  rw [List.length_flatten, List.map_map]
  have hm : ((dyadicBands N).map (List.length ∘
      fun b => (bandTimes N (bandIdx N b).length).map (fun t => (b.centre, t)))) =
      (dyadicBands N).map (fun b => (bandIdx N b).length) := by
    refine List.map_congr_left (fun b _ => ?_)
    simp only [Function.comp_apply, List.length_map, bandTimes_length]
  rw [hm, dyadic_count_sum h]

/-! ### The mirrored dyadic layout for negative-frequency output -/

/-- Zip of the three scheme arrays into bands, index-aligned. -/
def zipBands (c s e : List ℤ) : List Band :=
  List.zipWith (fun a p => ⟨a, p.1, p.2⟩) c (s.zip e)

theorem assembled_eq_zipBands : ∀ (c s e : List ℤ), c.length = s.length → c.length = e.length →
    (List.range c.length).map (fun k => (⟨c.getD k 0, s.getD k 0, e.getD k 0⟩ : Band)) =
      zipBands c s e := by
  intro c
  induction c with
  | nil => intro s e _ _; rfl
  | cons a ct ih =>
    intro s e hs he
    cases s with
    | nil => simp at hs
    | cons b st =>
      cases e with
      | nil => simp at he
      | cons d et =>
        have hcons : zipBands (a :: ct) (b :: st) (d :: et) =
            (⟨a, b, d⟩ : Band) :: zipBands ct st et := rfl
        rw [hcons, List.length_cons, List.range_succ_eq_map, List.map_cons, List.map_map]
        refine congrArg₂ _ rfl ?_
        rw [← ih st et (by simpa using hs) (by simpa using he)]
        refine List.map_congr_left (fun k hk => ?_)
        simp only [Function.comp_apply, List.getD_cons_succ]

theorem zipBands_append {A C E A2 C2 E2 : List ℤ} (h1 : A.length = C.length)
    (h2 : A.length = E.length) :
    zipBands (A ++ A2) (C ++ C2) (E ++ E2) = zipBands A C E ++ zipBands A2 C2 E2 := by
  unfold zipBands
  rw [List.zip_append (by omega), List.zipWith_append _ _ _ _ _ (by rw [List.length_zip]; omega)]

theorem zipBands_maps (S : List ℤ) (f g h3 : ℤ → ℤ) :
    zipBands (S.map f) (S.map g) (S.map h3) = S.map (fun s => ⟨f s, g s, h3 s⟩) := by
  induction S with
  | nil => rfl
  | cons a t ih =>
    rw [List.map_cons, List.map_cons, List.map_cons, List.map_cons]
    unfold zipBands
    rw [List.zip_cons_cons, List.zipWith_cons_cons]
    exact congrArg₂ _ rfl ih

theorem zipBands_maps_mid (S : List ℤ) (f h3 : ℤ → ℤ) :
    zipBands (S.map f) S (S.map h3) = S.map (fun s => ⟨f s, s, h3 s⟩) := by
  induction S with
  | nil => rfl
  | cons a t ih =>
    rw [List.map_cons, List.map_cons, List.map_cons]
    have hcons : zipBands (f a :: t.map f) (a :: t) (h3 a :: t.map h3) =
        (⟨f a, a, h3 a⟩ : Band) :: zipBands (t.map f) t (t.map h3) := rfl
    rw [hcons, ih]

theorem gftLayout_dyadic_full (N : ℕ) :
    gftLayout N "dyadic" true = Except.ok
      (((dyadic N).2.1.reverse.map (fun s => ⟨-cOf s, -s, -eOf N s⟩)) ++ dyadicBands N) := by
  unfold gftLayout
  rw [if_pos rfl]
  simp only [mirrorBands]
  have hfilter : ¬ ("dyadic" = "full" ∧ true = false) := by simp
  simp only [if_neg hfilter]
  have h0min : True ∧ 0 ≤ intMin (dyadic N).1 := by
    refine ⟨trivial, ?_⟩
    have hne : (dyadic N).1 ≠ [] := by
      have hc : (dyadic N).1 = cOf 0 :: ((List.range (Nat.clog 2 N - 1)).map
          (fun j : ℕ => (2 : ℤ) ^ j)).map cOf := rfl
      rw [hc]
      exact List.cons_ne_nil _ _
    rcases intMin_spec _ hne with ⟨hmem, _⟩
    have hc2 : (dyadic N).1 = ((dyadic N).2.1).map cOf := by
      conv_lhs => rw [dyadic_eq N]
    rw [hc2] at hmem ⊢
    rcases List.mem_map.1 hmem with ⟨s, hs, hval⟩
    rw [← hval]
    exact cOf_nonneg (dyadic_start_nonneg hs)
  simp only [if_pos h0min]
  have hhead : ¬ ((dyadic N).1.headD 0 = 0) := by
    have hh : (dyadic N).1.headD 0 = cOf 0 := rfl
    rw [hh]
    decide
  simp only [if_neg hhead]
  refine congrArg _ ?_
  have hc2 : (dyadic N).1 = ((dyadic N).2.1).map cOf := by
    conv_lhs => rw [dyadic_eq N]
  have he2 : (dyadic N).2.2 = ((dyadic N).2.1).map (eOf N) := by
    conv_lhs => rw [dyadic_eq N]
  rw [hc2, he2]
  have hlenc : (((dyadic N).2.1).map cOf).reverse.map (fun x : ℤ => -x) =
      ((dyadic N).2.1).reverse.map (fun s => -cOf s) := by
    rw [← List.map_reverse, List.map_map]
    rfl
  have hlens : ((dyadic N).2.1).reverse.map (fun x : ℤ => -x) =
      ((dyadic N).2.1).reverse.map (fun s : ℤ => -s) := rfl
  have hlene : (((dyadic N).2.1).map (eOf N)).reverse.map (fun x : ℤ => -x) =
      ((dyadic N).2.1).reverse.map (fun s => -eOf N s) := by
    rw [← List.map_reverse, List.map_map]
    rfl
  rw [hlenc, hlens, hlene]
  have hassem := assembled_eq_zipBands
    (((dyadic N).2.1).reverse.map (fun s => -cOf s) ++ ((dyadic N).2.1).map cOf)
    (((dyadic N).2.1).reverse.map (fun s : ℤ => -s) ++ (dyadic N).2.1)
    (((dyadic N).2.1).reverse.map (fun s => -eOf N s) ++ ((dyadic N).2.1).map (eOf N))
    (by simp) (by simp)
  rw [hassem, zipBands_append (by simp) (by simp), zipBands_maps, zipBands_maps_mid]
  rfl

theorem eOf_pow2_facts {L : ℕ} (hL : 1 ≤ L) {s : ℤ} (hs : s ∈ (dyadic (2 ^ L)).2.1) :
    0 ≤ s ∧ s < eOf (2 ^ L) s ∧ eOf (2 ^ L) s ≤ (2 : ℤ) ^ (L - 1) := by
  have hclog : Nat.clog 2 (2 ^ L) = L := Nat.clog_pow 2 L (by norm_num)
  rcases dyadic_start_mem hs with rfl | ⟨j, hj, rfl⟩
  · rw [eOf_zero Nat.one_le_two_pow]
    refine ⟨le_refl 0, by norm_num, ?_⟩
    exact_mod_cast (Nat.one_le_two_pow : 1 ≤ 2 ^ (L - 1))
  · rw [hclog] at hj
    rw [eOf_pow (Nat.pow_le_pow_right (by norm_num) (by omega))]
    refine ⟨by positivity, ?_, ?_⟩
    · rw [pow_succ]
      have hp : (0 : ℤ) < (2 : ℤ) ^ j := by positivity
      omega
    · exact_mod_cast (Nat.pow_le_pow_right (by norm_num) (by omega) :
        (2 : ℕ) ^ (j + 1) ≤ 2 ^ (L - 1))

theorem halfK_pow2 (L : ℕ) (hL : 1 ≤ L) :
    (((2 ^ L : ℕ) / 2 : ℕ) : ℤ) = (2 : ℤ) ^ (L - 1) ∧
    (((2 ^ L + 1 : ℕ) / 2 : ℕ) : ℤ) = (2 : ℤ) ^ (L - 1) := by
  have hsplit : (2 : ℕ) ^ L = 2 * 2 ^ (L - 1) := by
    conv_lhs => rw [show L = (L - 1) + 1 by omega]
    rw [pow_succ]
    ring
  have hNat1 : (2 ^ L : ℕ) / 2 = 2 ^ (L - 1) := by omega
  have hNat2 : (2 ^ L + 1 : ℕ) / 2 = 2 ^ (L - 1) := by omega
  refine ⟨?_, ?_⟩
  · rw [hNat1]
    push_cast
    rfl
  · rw [hNat2]
    push_cast
    rfl

theorem bandIdx_pow2_pos {L : ℕ} (hL : 1 ≤ L) {s : ℤ} (hs : s ∈ (dyadic (2 ^ L)).2.1) :
    (bandIdx (2 ^ L) ⟨cOf s, s, eOf (2 ^ L) s⟩).length = (eOf (2 ^ L) s - s).toNat := by
  rcases eOf_pow2_facts hL hs with ⟨h0, hlt, hub⟩
  rw [bandIdx_length_eq]
  dsimp only
  rw [countP_bandPred_straight (not_lt.2 (le_of_lt hlt))]
  rcases halfK_pow2 L hL with ⟨hK, hH⟩
  rw [hK, hH]
  have hmin : min (eOf (2 ^ L) s) ((2 : ℤ) ^ (L - 1)) = eOf (2 ^ L) s := min_eq_left hub
  have hmax : max s (-(2 : ℤ) ^ (L - 1)) = s :=
    max_eq_left (le_trans (neg_nonpos.2 (by positivity)) h0)
  rw [hmin, hmax]

theorem bandIdx_pow2_mirror {L : ℕ} (hL : 1 ≤ L) {s : ℤ} (hs : s ∈ (dyadic (2 ^ L)).2.1) :
    (bandIdx (2 ^ L) ⟨-cOf s, -s, -eOf (2 ^ L) s⟩).length = (eOf (2 ^ L) s - s).toNat := by
  rcases eOf_pow2_facts hL hs with ⟨h0, hlt, hub⟩
  rw [bandIdx_length_eq]
  dsimp only
  rw [countP_bandPred_wrap (neg_lt_neg hlt)]
  rcases halfK_pow2 L hL with ⟨hK, hH⟩
  rw [hK, hH]
  have hmin : min (-s) ((2 : ℤ) ^ (L - 1)) = -s :=
    min_eq_left (le_trans (neg_nonpos.2 h0) (by positivity))
  have hmax : max (-eOf (2 ^ L) s) (-(2 : ℤ) ^ (L - 1)) = -eOf (2 ^ L) s :=
    max_eq_left (neg_le_neg hub)
  rw [hmin, hmax]
  refine congrArg _ ?_
  ring

theorem sum_pow_two_range : ∀ n : ℕ,
    ((List.range n).map (fun j : ℕ => (2 : ℕ) ^ j)).sum = 2 ^ n - 1 := by
  intro n
  induction n with
  | zero => rfl
  | succ m ih =>
    rw [List.range_succ, List.map_append, List.sum_append, ih]
    have hsp : (2 : ℕ) ^ (m + 1) = 2 * 2 ^ m := by
      rw [pow_succ]
      ring
    have hp : 1 ≤ (2 : ℕ) ^ m := Nat.one_le_two_pow
    simp only [List.map_cons, List.map_nil, List.sum_cons, List.sum_nil]
    omega

theorem sum_eOf_sub_pow2 (L : ℕ) (hL : 1 ≤ L) :
    (((dyadic (2 ^ L)).2.1).map (fun s => (eOf (2 ^ L) s - s).toNat)).sum = 2 ^ (L - 1) := by
  have hclog : Nat.clog 2 (2 ^ L) = L := Nat.clog_pow 2 L (by norm_num)
  have hS : (dyadic (2 ^ L)).2.1 =
      (0 : ℤ) :: (List.range (Nat.clog 2 (2 ^ L) - 1)).map (fun j : ℕ => (2 : ℤ) ^ j) := rfl
  rw [hS, hclog, List.map_cons, List.sum_cons, List.map_map]
  rw [eOf_zero Nat.one_le_two_pow]
  have hmapc : (List.range (L - 1)).map
      ((fun s : ℤ => (eOf (2 ^ L) s - s).toNat) ∘ fun j : ℕ => (2 : ℤ) ^ j) =
      (List.range (L - 1)).map (fun j : ℕ => (2 : ℕ) ^ j) := by
    refine List.map_congr_left (fun j hj => ?_)
    rw [List.mem_range] at hj
    simp only [Function.comp_apply]
    rw [eOf_pow (Nat.pow_le_pow_right (by norm_num) (by omega))]
    rw [pow_succ]
    rw [show (2 : ℤ) ^ j * 2 - (2 : ℤ) ^ j = (2 : ℤ) ^ j by ring]
    rw [show ((2 : ℤ) ^ j) = (((2 ^ j : ℕ) : ℤ)) by push_cast; rfl, Int.toNat_natCast]
  rw [hmapc, sum_pow_two_range]
  have hp : 1 ≤ (2 : ℕ) ^ (L - 1) := Nat.one_le_two_pow
  norm_num
  omega

theorem pow2_layout_count_pos {L : ℕ} (hL : 1 ≤ L) :
    ∀ b ∈ (((dyadic (2 ^ L)).2.1.reverse.map (fun s => ⟨-cOf s, -s, -eOf (2 ^ L) s⟩)) ++
      dyadicBands (2 ^ L)), ¬ (bandIdx (2 ^ L) b).length = 0 := by
  intro b hb
  rcases List.mem_append.1 hb with hmb | hmb
  · rcases List.mem_map.1 hmb with ⟨s, hsrev, rfl⟩
    have hs : s ∈ (dyadic (2 ^ L)).2.1 := List.mem_reverse.1 hsrev
    rw [bandIdx_pow2_mirror hL hs]
    rcases eOf_pow2_facts hL hs with ⟨_, hlt, _⟩
    generalize hx : eOf (2 ^ L) s - s = x at hlt ⊢
    omega
  · unfold dyadicBands at hmb
    rcases List.mem_map.1 hmb with ⟨s, hs, rfl⟩
    rw [bandIdx_pow2_pos hL hs]
    rcases eOf_pow2_facts hL hs with ⟨_, hlt, _⟩
    generalize hx : eOf (2 ^ L) s - s = x at hlt ⊢
    omega

theorem gftCoords_dyadic_full_pow2 {L : ℕ} (hL : 1 ≤ L) :
    (gftCoords (2 ^ L) "dyadic" true false).map List.length = Except.ok (2 ^ L) := by
  unfold gftCoords
  rw [if_neg (by intro hc; exact Bool.false_ne_true hc.1), gftLayout_dyadic_full (2 ^ L),
    except_bind_ok]
  rw [mapM_ok_of_forall _ (fun b hb => by rw [if_neg (pow2_layout_count_pos hL b hb)]),
    except_bind_ok, exceptMap_ok]
  refine congrArg _ ?_
  rw [List.length_flatten, List.map_map]
  have hm : ((((dyadic (2 ^ L)).2.1.reverse.map
      (fun s => (⟨-cOf s, -s, -eOf (2 ^ L) s⟩ : Band))) ++
      dyadicBands (2 ^ L)).map (List.length ∘
        fun b => (bandTimes (2 ^ L) (bandIdx (2 ^ L) b).length).map (fun t => (b.centre, t)))) =
      ((((dyadic (2 ^ L)).2.1.reverse.map
        (fun s => (⟨-cOf s, -s, -eOf (2 ^ L) s⟩ : Band))) ++
        dyadicBands (2 ^ L)).map (fun b => (bandIdx (2 ^ L) b).length)) := by
    refine List.map_congr_left (fun b _ => ?_)
    simp only [Function.comp_apply, List.length_map, bandTimes_length]
  rw [hm, List.map_append, List.sum_append, List.map_map]
  have hmir : ((dyadic (2 ^ L)).2.1.reverse.map
      ((fun b => (bandIdx (2 ^ L) b).length) ∘ fun s => (⟨-cOf s, -s, -eOf (2 ^ L) s⟩ : Band))) =
      ((dyadic (2 ^ L)).2.1.reverse.map (fun s => (eOf (2 ^ L) s - s).toNat)) := by
    refine List.map_congr_left (fun s hsrev => ?_)
    exact bandIdx_pow2_mirror hL (List.mem_reverse.1 hsrev)
  rw [hmir, List.map_reverse, List.sum_reverse, sum_eOf_sub_pow2 L hL]
  unfold dyadicBands
  rw [List.map_map]
  have hpos : ((dyadic (2 ^ L)).2.1.map
      ((fun b => (bandIdx (2 ^ L) b).length) ∘ fun s => (⟨cOf s, s, eOf (2 ^ L) s⟩ : Band))) =
      ((dyadic (2 ^ L)).2.1.map (fun s => (eOf (2 ^ L) s - s).toNat)) := by
    refine List.map_congr_left (fun s hs => ?_)
    exact bandIdx_pow2_pos hL hs
  rw [hpos, sum_eOf_sub_pow2 L hL]
  have hsplit : (2 : ℕ) ^ L = 2 * 2 ^ (L - 1) := by
    conv_lhs => rw [show L = (L - 1) + 1 by omega]
    rw [pow_succ]
    ring
  omega

/-! ### Claims C2 and C7 -/

/-- C2 counterexample: for the signal length `N = 8` and dyadic sampling with
the default `full=False` (negative frequencies not kept), `gft` produces 4
output samples, not `N = 8` — the analytic-signal path only analyses the
nonnegative half of the spectrum, so the dyadic bands cover `⌈N/2⌉` bins. -/
theorem C2_counterexample :
    (gftCoords 8 "dyadic" false false).map List.length = Except.ok 4 ∧ (4 : ℕ) ≠ 8 := by
  refine ⟨?_, by norm_num⟩
  have hres := gftCoords_dyadic_length (show (1 : ℕ) ≤ 8 by norm_num)
  norm_num at hres
  exact hres

/-- C2 (amended): for every signal length `N ≥ 1`, dyadic sampling produces
exactly `max ⌈log2 N⌉ 1` bands (so `O(log2 N)` bands); the total number of
output samples is `⌈N/2⌉` when negative frequencies are not kept
(`full=False`, the default), and it equals `N` when `full=True` and `N` is a
power of two `2^I` with `I ≥ 1`. -/
theorem C2_dyadic_sample_count : ∀ N : ℕ, 1 ≤ N →
    (gftLayout N "dyadic" false = Except.ok (dyadicBands N) ∧
      (dyadicBands N).length = max (Nat.clog 2 N) 1) ∧
    (gftCoords N "dyadic" false false).map List.length = Except.ok ((N + 1) / 2) ∧
    (∀ I : ℕ, 1 ≤ I → N = 2 ^ I →
      (gftCoords N "dyadic" true false).map List.length = Except.ok N) := by
  intro N h
  refine ⟨⟨gftLayout_dyadic N, ?_⟩, gftCoords_dyadic_length h, ?_⟩
  · unfold dyadicBands
    rw [List.length_map]
    have hlen : (dyadic N).2.1.length = 1 + (Nat.clog 2 N - 1) := by
      rw [show (dyadic N).2.1 =
        (0 : ℤ) :: (List.range (Nat.clog 2 N - 1)).map (fun j : ℕ => (2 : ℤ) ^ j) from rfl]
      rw [List.length_cons, List.length_map, List.length_range]
      omega
    omega
  · intro I hI hN
    subst hN
    exact gftCoords_dyadic_full_pow2 hI

/-- Witness for the amended C2 at `N = 8` (`full=False` gives 4 samples,
`full=True` with `8 = 2^3` gives 8). -/
theorem C2_dyadic_sample_count_witness :
    (gftCoords 8 "dyadic" false false).map List.length = Except.ok ((8 + 1) / 2) ∧
    (gftCoords 8 "dyadic" true false).map List.length = Except.ok 8 :=
  ⟨(C2_dyadic_sample_count 8 (by norm_num)).2.1,
   (C2_dyadic_sample_count 8 (by norm_num)).2.2 3 (by norm_num) (by norm_num)⟩

/-- C7: for every signal length `N ≥ 1`, the dyadic sampling scheme produces
the start frequencies `[0, 1, 2, 4, ..., 2^(⌈log2 N⌉ - 2)]` (the powers of two
below `2^(⌈log2 N⌉ - 1)`, where `Nat.clog 2 N` is `⌈log2 N⌉`: `N ≤ 2^clog` and
`2^(clog-1) < N`); each centre is `s+1` when `s < 2` and `⌊1.5s + 1⌋`
otherwise; each end is `min (s + width) N` with width `1` when `s < 2` and `s`
otherwise. -/
theorem C7_dyadic_scheme : ∀ N : ℕ, 1 ≤ N →
    (dyadic N).2.1 = (0 : ℤ) :: (List.range (Nat.clog 2 N - 1)).map (fun j : ℕ => (2 : ℤ) ^ j) ∧
    N ≤ 2 ^ Nat.clog 2 N ∧ (2 ≤ N → 2 ^ (Nat.clog 2 N - 1) < N) ∧
    (dyadic N).1 = ((dyadic N).2.1).map cOf ∧
    (dyadic N).2.2 = ((dyadic N).2.1).map (eOf N) ∧
    (∀ s ∈ (dyadic N).2.1,
      cOf s = (if s < 2 then s + 1 else ⌊(3 * (s : ℚ) / 2 + 1 : ℚ)⌋) ∧
      eOf N s = min (s + (if s < 2 then 1 else s)) (N : ℤ)) := by
  intro N h
  refine ⟨rfl, Nat.le_pow_clog (by norm_num) N,
    fun h2 => Nat.pow_pred_clog_lt_self (by norm_num) (by omega), ?_, ?_, ?_⟩
  · conv_lhs => rw [dyadic_eq N]
  · conv_lhs => rw [dyadic_eq N]
  · intro s _
    constructor
    · unfold cOf
      by_cases hs : s < 2
      · rw [if_pos hs, if_pos hs]
      · rw [if_neg hs, if_neg hs]
        have hq : (3 * (s : ℚ) / 2 + 1 : ℚ) = ((3 * s + 2 : ℤ) : ℚ) / ((2 : ℕ) : ℚ) := by
          push_cast
          ring
        rw [hq, Rat.floor_intCast_div_natCast]
        norm_num
    · unfold eOf
      by_cases hc : s + (if s < 2 then (1 : ℤ) else s) ≤ (N : ℤ)
      · rw [if_pos hc]
        exact (min_eq_left hc).symm
      · rw [if_neg hc]
        rw [min_eq_right (by omega)]

/-- Witness for C7 at `N = 8`: the start list is `[0, 1, 2]` and the
`⌈log2⌉` bounds hold. -/
theorem C7_dyadic_scheme_witness :
    (dyadic 8).2.1 =
      (0 : ℤ) :: (List.range (Nat.clog 2 8 - 1)).map (fun j : ℕ => (2 : ℤ) ^ j) ∧
    8 ≤ 2 ^ Nat.clog 2 8 :=
  ⟨(C7_dyadic_scheme 8 (by norm_num)).1, (C7_dyadic_scheme 8 (by norm_num)).2.1⟩

/-! ### Error paths: unsupported scheme, short signals -/

theorem gft_eq (sig : List ℂ) (window : ℕ → ℤ → List ℂ) (sampling : String)
    (full hanning : Bool) :
    gft sig window sampling full hanning =
      (if hanning = true then applyHanning (detrend sig) else Except.ok (detrend sig)) >>=
        fun sig2 =>
          (gftLayout sig.length sampling full) >>= fun bands =>
            bands.mapM (fun b =>
              if (bandIdx sig.length b).length = 0 then Except.error GftError.emptyBand
              else Except.ok (b.centre,
                gftBandValues sig.length
                  (dft (if full = false ∧ allReal sig2 then hilbert sig2 else sig2))
                  (cmean (if full = false ∧ allReal sig2 then hilbert sig2 else sig2))
                  window b)) := by
  cases hanning
  · rfl
  · rfl

theorem gftLayout_unsupported {s : String} (hf : s ≠ "full") (hd : s ≠ "dyadic")
    (N : ℕ) (full : Bool) :
    gftLayout N s full = Except.error GftError.unsupportedSamplingScheme := by
  unfold gftLayout
  rw [if_neg hd, if_neg hf]

/-- C9: a sampling-scheme name other than "full" and "dyadic" makes `gft` fail
with the unsupported-sampling-scheme error, surfaced to the caller with no
partial result: the coordinate layer errors whenever the taper gate lets the
run reach the dispatch, the value layer errors for every signal and window,
and every run with such a name errors. -/
theorem C9_unsupported_sampling : ∀ (s : String), s ≠ "full" → s ≠ "dyadic" →
    (∀ (N : ℕ) (full hann : Bool),
      (hann = true → taperOk N = true) →
      gftCoords N s full hann = Except.error GftError.unsupportedSamplingScheme) ∧
    (∀ (sig : List ℂ) (w : ℕ → ℤ → List ℂ) (full : Bool),
      gft sig w s full false = Except.error GftError.unsupportedSamplingScheme) ∧
    (∀ (N : ℕ) (full hann : Bool), ∃ e, gftCoords N s full hann = Except.error e) := by
  intro s hf hd
  refine ⟨?_, ?_, ?_⟩
  · intro N full hann hg
    have hng : ¬ (hann = true ∧ taperOk N = false) := by
      intro hc
      rw [hg hc.1] at hc
      exact absurd hc.2 (by decide)
    unfold gftCoords
    rw [if_neg hng, gftLayout_unsupported hf hd N full, except_bind_error]
  · intro sig w full
    have h1 : (if (false : Bool) = true then applyHanning (detrend sig)
        else Except.ok (detrend sig)) = Except.ok (detrend sig) := if_neg Bool.false_ne_true
    rw [gft_eq, h1]
    simp only [except_bind_ok]
    rw [gftLayout_unsupported hf hd sig.length full, except_bind_error]
  · intro N full hann
    by_cases hc : hann = true ∧ taperOk N = false
    · refine ⟨GftError.taperShapeMismatch, ?_⟩
      unfold gftCoords
      rw [if_pos hc]
    · refine ⟨GftError.unsupportedSamplingScheme, ?_⟩
      unfold gftCoords
      rw [if_neg hc, gftLayout_unsupported hf hd N full, except_bind_error]

/-- Witness for C9 at the scheme name "nope". -/
theorem C9_unsupported_sampling_witness :
    gftCoords 16 "nope" false true = Except.error GftError.unsupportedSamplingScheme ∧
    gft [1, 0] gaussian_ft "nope" false false =
      Except.error GftError.unsupportedSamplingScheme :=
  ⟨(C9_unsupported_sampling "nope" (by decide) (by decide)).1 16 false true
      (fun _ => by decide),
    (C9_unsupported_sampling "nope" (by decide) (by decide)).2.1 [1, 0] gaussian_ft false⟩

theorem hannN_small {N : ℕ} (h9 : N ≤ 9) : hannN N = 0 := by
  simp only [hannN]
  rw [Nat.div_eq_of_lt (by omega : N < 10)]
  decide

theorem hannWin_zero : hannWin 0 = [] := by
  simp only [hannWin, List.range_zero, List.map_nil]

theorem applyHanning_small {l : List ℂ} (h1 : 1 ≤ l.length) (h9 : l.length ≤ 9) :
    applyHanning l = Except.error GftError.taperShapeMismatch := by
  simp only [applyHanning]
  rw [hannN_small h9, hannWin_zero]
  simp only [Nat.zero_div, List.take_nil, List.zipWith_nil_left, List.nil_append,
    List.drop_zero, if_true, List.length_nil]
  rw [if_neg (by omega : ¬ l.length = 0)]

theorem taperOk_small {N : ℕ} (h1 : 1 ≤ N) (h9 : N ≤ 9) : taperOk N = false := by
  interval_cases N <;> decide

theorem detrend_length (sig : List ℂ) : (detrend sig).length = sig.length := by
  simp only [detrend]
  rw [List.length_map]

/-- C10: for a 1-D signal of length `1 ≤ N ≤ 9` with the taper on (the
default), the run fails with the taper shape mismatch instead of returning a
result: `int(0.1*N)` is `0`, so the trailing python slice `sig[-0:]` is the
whole signal while the window slice is empty.  Both the value layer and the
coordinate layer error. -/
theorem C10_small_signal_taper_error : ∀ (sig : List ℂ) (w : ℕ → ℤ → List ℂ)
    (s : String) (full : Bool), 1 ≤ sig.length → sig.length ≤ 9 →
    gft sig w s full true = Except.error GftError.taperShapeMismatch ∧
    gftCoords sig.length s full true = Except.error GftError.taperShapeMismatch := by
  intro sig w s full h1 h9
  constructor
  · rw [gft_eq, if_pos rfl,
      applyHanning_small (by rw [detrend_length]; exact h1) (by rw [detrend_length]; exact h9),
      except_bind_error]
  · unfold gftCoords
    rw [if_pos ⟨rfl, taperOk_small h1 h9⟩]

/-- Witness for C10 on a constant signal of five ones. -/
theorem C10_small_signal_taper_error_witness :
    gft (List.replicate 5 (1 : ℂ)) gaussian_ft "full" false true =
      Except.error GftError.taperShapeMismatch ∧
    gftCoords (List.replicate 5 (1 : ℂ)).length "full" false true =
      Except.error GftError.taperShapeMismatch :=
  C10_small_signal_taper_error (List.replicate 5 (1 : ℂ)) gaussian_ft "full" false
    (by rw [List.length_replicate]; norm_num) (by rw [List.length_replicate]; norm_num)

/-- C8: the window spectrum is never queried at centre frequency `0`: the DC
branch of the band loop broadcasts the signal mean without calling the window,
so the whole run is unchanged when the window function is replaced by any other
function agreeing with it at every nonzero centre.  In particular the division
by `f**2` inside the Gaussian window never divides by zero. -/
theorem C8_window_not_queried_at_zero : ∀ (sig : List ℂ) (w1 w2 : ℕ → ℤ → List ℂ)
    (s : String) (full hann : Bool),
    (∀ c : ℤ, c ≠ 0 → w1 sig.length c = w2 sig.length c) →
    gft sig w1 s full hann = gft sig w2 s full hann := by
  intro sig w1 w2 s full hann hw
  rw [gft_eq, gft_eq]
  cases h2 : (if hann = true then applyHanning (detrend sig) else Except.ok (detrend sig)) with
  | error e => rw [except_bind_error, except_bind_error]
  | ok sig2 =>
    simp only [except_bind_ok]
    cases hlay : gftLayout sig.length s full with
    | error e => rw [except_bind_error, except_bind_error]
    | ok bands =>
      simp only [except_bind_ok]
      refine mapM_congr (fun b hb => ?_)
      by_cases hc : (bandIdx sig.length b).length = 0
      · rw [if_pos hc, if_pos hc]
      · rw [if_neg hc, if_neg hc]
        refine congrArg _ (congrArg _ ?_)
        simp only [gftBandValues]
        by_cases hb0 : b.centre = 0
        · rw [if_pos hb0, if_pos hb0]
        · rw [if_neg hb0, if_neg hb0, hw b.centre hb0]

/-- Witness for C8: replacing the Gaussian window by one emptied at centre `0`
leaves the run on a two-sample signal unchanged. -/
theorem C8_window_not_queried_at_zero_witness :
    gft [1, 0] gaussian_ft "full" true false =
      gft [1, 0] (fun N c => if c = 0 then [] else gaussian_ft N c) "full" true false :=
  C8_window_not_queried_at_zero [1, 0] gaussian_ft
    (fun N c => if c = 0 then [] else gaussian_ft N c) "full" true false
    (fun c hc => by simp only [if_neg hc])

/-! ### Constant signals and the DC band -/

theorem hann_gate_off (sig : List ℂ) :
    (if (false : Bool) = true then applyHanning (detrend sig) else Except.ok (detrend sig)) =
      Except.ok (detrend sig) := if_neg Bool.false_ne_true

theorem true_false_and (p : Prop) : ((true : Bool) = false ∧ p) = False :=
  eq_false (fun hc => absurd hc.1 (by decide))

theorem cmean_replicate {n : ℕ} (hn : n ≠ 0) (z : ℂ) :
    cmean (List.replicate n z) = z := by
  unfold cmean
  rw [List.sum_replicate, List.length_replicate, nsmul_eq_mul, mul_comm, mul_div_assoc,
    div_self (Nat.cast_ne_zero.2 hn), mul_one]

theorem detrend_replicate (n : ℕ) (z : ℂ) :
    detrend (List.replicate n z) = List.replicate n 0 := by
  cases n with
  | zero => rfl
  | succ m =>
    unfold detrend
    rw [cmean_replicate (Nat.succ_ne_zero m) z, List.map_replicate, sub_self]

theorem getD_replicate_zero (n k : ℕ) : (List.replicate n (0 : ℂ)).getD k 0 = 0 :=
  getD_zero_of_forall (fun x hx => List.eq_of_mem_replicate hx) k

theorem cmean_zeroes {l : List ℂ} (h : ∀ x ∈ l, x = 0) : cmean l = 0 := by
  unfold cmean
  rw [List.sum_eq_zero h, zero_div]

theorem cmean_replicate_zero (n : ℕ) : cmean (List.replicate n (0 : ℂ)) = 0 :=
  cmean_zeroes (fun x hx => List.eq_of_mem_replicate hx)

theorem map_range_zero {f : ℕ → ℂ} (n : ℕ) (h : ∀ k, f k = 0) :
    (List.range n).map f = List.replicate n 0 := by
  rw [List.map_congr_left (fun a _ => h a), List.map_const', List.length_range]

theorem sum_map_zero {α : Type} (l : List α) (f : α → ℂ) (h : ∀ a ∈ l, f a = 0) :
    (l.map f).sum = 0 := by
  rw [List.map_congr_left h, List.map_const', List.sum_replicate, smul_zero]

theorem dft_replicate_zero (n : ℕ) :
    dft (List.replicate n (0 : ℂ)) = List.replicate n 0 := by
  unfold dft
  simp only [List.length_replicate]
  exact map_range_zero n (fun k =>
    sum_map_zero _ _ (fun j hj => by rw [getD_replicate_zero, zero_mul]))

theorem idft_zeroes {l : List ℂ} (h : ∀ x ∈ l, x = 0) :
    idft l = List.replicate l.length 0 := by
  unfold idft
  refine map_range_zero l.length (fun j => ?_)
  rw [sum_map_zero _ _ (fun k hk => by rw [getD_zero_of_forall h, zero_mul]), zero_div]

theorem nproll_replicate {α : Type} (n : ℕ) (z : α) (s : ℤ) :
    nproll (List.replicate n z) s = List.replicate n z := by
  unfold nproll
  rw [List.rotate_replicate]

theorem gftBandValues_const (N : ℕ) (w : ℕ → ℤ → List ℂ) (b : Band) :
    gftBandValues N (List.replicate N (0 : ℂ)) 0 w b =
      List.replicate (bandIdx N b).length 0 := by
  simp only [gftBandValues]
  by_cases hb0 : b.centre = 0
  · rw [if_pos hb0]
  · rw [if_neg hb0]
    have h : ∀ x ∈ (bandIdx N b).map (fun i =>
        (nproll (List.replicate N (0 : ℂ)) (-b.centre)).getD i 0 * (w N b.centre).getD i 0),
        x = (0 : ℂ) := by
      intro x hx
      rcases List.mem_map.1 hx with ⟨i, hi, rfl⟩
      rw [nproll_replicate, getD_replicate_zero, zero_mul]
    rw [idft_zeroes h, List.length_map]

/-- A constant signal with the full mirrored layout and no taper: every band
(DC included) comes out as `n` zero samples, because the broadcast DC value is
the mean of the detrended signal, which is zero. -/
theorem gft_const {n : ℕ} (hn : 1 ≤ n) (z : ℂ) (w : ℕ → ℤ → List ℂ) :
    gft (List.replicate n z) w "full" true false =
      Except.ok ((linRange n).map (fun c => (c, List.replicate n (0 : ℂ)))) := by
  rw [gft_eq, hann_gate_off]
  simp only [except_bind_ok, List.length_replicate, true_false_and, if_false,
    detrend_replicate, dft_replicate_zero, cmean_replicate_zero]
  rw [gftLayout_full hn, except_bind_ok]
  have hmap : (fullBands n).mapM (fun b =>
      if (bandIdx n b).length = 0 then
        (Except.error GftError.emptyBand : Except GftError (ℤ × List ℂ))
      else Except.ok (b.centre, gftBandValues n (List.replicate n 0) 0 w b)) =
      Except.ok ((fullBands n).map (fun b => (b.centre, List.replicate n (0 : ℂ)))) := by
    refine mapM_ok_of_forall _ (fun b hb => ?_)
    rw [fullBands_count hn b hb, if_neg (by omega), gftBandValues_const n w b,
      fullBands_count hn b hb]
  rw [hmap]
  refine congrArg _ ?_
  unfold fullBands
  rw [List.map_map]
  rfl

/-- Counterexample to C1 at the claim's own scenario: a constant signal of 128
ones with `sampling='full'`, `hanning=False`, `full=True`.  The run succeeds,
the DC band `(centre 0)` is present, all of its samples are `0`, yet the mean
of the input signal is `1`: the broadcast uses the mean taken after
`detrend`, not `mean(sig)`. -/
theorem C1_counterexample :
    gft (List.replicate 128 (1 : ℂ)) gaussian_ft "full" true false =
      Except.ok ((linRange 128).map (fun c => (c, List.replicate 128 (0 : ℂ)))) ∧
    ((0 : ℤ), List.replicate 128 (0 : ℂ)) ∈
      (linRange 128).map (fun c => (c, List.replicate 128 (0 : ℂ))) ∧
    (∀ v ∈ List.replicate 128 (0 : ℂ), v = 0) ∧
    cmean (List.replicate 128 (1 : ℂ)) = 1 ∧ (0 : ℂ) ≠ 1 := by
  refine ⟨gft_const (by norm_num) 1 gaussian_ft,
    List.mem_map.2 ⟨0, linRange_mem.2 (by decide), rfl⟩,
    fun v hv => List.eq_of_mem_replicate hv,
    cmean_replicate (by norm_num) 1, ?_⟩
  norm_num

/-- C1 (amended): with `full=True` and `hanning=False` the DC band samples of
a successful `gft` run all equal the mean of the detrended signal — not the
mean of the input; and for a constant signal with `sampling='full'` every
band, the DC band included, is all zeros. -/
theorem C1_dc_band :
    (∀ (sig : List ℂ) (w : ℕ → ℤ → List ℂ) (s : String) (bs : List (ℤ × List ℂ)),
      gft sig w s true false = Except.ok bs →
      ∀ p ∈ bs, p.1 = 0 → p.2 = List.replicate p.2.length (cmean (detrend sig))) ∧
    (∀ (n : ℕ), 1 ≤ n → ∀ (z : ℂ) (w : ℕ → ℤ → List ℂ),
      gft (List.replicate n z) w "full" true false =
        Except.ok ((linRange n).map (fun c => (c, List.replicate n (0 : ℂ))))) := by
  constructor
  · intro sig w s bs hrun p hp h0
    rw [gft_eq, hann_gate_off] at hrun
    simp only [except_bind_ok, true_false_and, if_false] at hrun
    cases hlay : gftLayout sig.length s true with
    | error e => rw [hlay, except_bind_error] at hrun; cases hrun
    | ok bands =>
      rw [hlay, except_bind_ok] at hrun
      rcases mapM_ok_mem hrun p hp with ⟨b, hb, hfb⟩
      by_cases hc : (bandIdx sig.length b).length = 0
      · rw [if_pos hc] at hfb; cases hfb
      · rw [if_neg hc] at hfb
        injection hfb with hp2
        rw [← hp2] at h0 ⊢
        dsimp only at h0 ⊢
        simp only [gftBandValues]
        rw [if_pos h0, List.length_replicate]
  · intro n hn z w
    exact gft_const hn z w

/-- Witness for C1 at a two-sample constant signal. -/
theorem C1_dc_band_witness :
    gft (List.replicate 2 (1 : ℂ)) gaussian_ft "full" true false =
      Except.ok ((linRange 2).map (fun c => (c, List.replicate 2 (0 : ℂ)))) ∧
    (∀ p ∈ (linRange 2).map (fun c => (c, List.replicate 2 (0 : ℂ))), p.1 = 0 →
      p.2 = List.replicate p.2.length (cmean (detrend (List.replicate 2 (1 : ℂ))))) :=
  ⟨C1_dc_band.2 2 (by norm_num) 1 gaussian_ft,
    fun p hp h0 => C1_dc_band.1 (List.replicate 2 1) gaussian_ft "full" _
      (C1_dc_band.2 2 (by norm_num) 1 gaussian_ft) p hp h0⟩

/-! ### Interpolation: boundary extension -/

theorem linEval_single {K : Type} [DivisionRing K] (p : ℚ × K) (t : ℚ) :
    linEval [p] t = p.2 := rfl

theorem linEval_cons_cons {K : Type} [DivisionRing K] (p q : ℚ × K) (rest : List (ℚ × K))
    (t : ℚ) :
    linEval (p :: q :: rest) t =
      if t ≤ q.1 then p.2 + (((t - p.1) / (q.1 - p.1) : ℚ) : K) * (q.2 - p.2)
      else linEval (q :: rest) t := rfl

theorem nearEval_single {K : Type} [DivisionRing K] (p : ℚ × K) (t : ℚ) :
    nearEval [p] t = p.2 := rfl

theorem nearEval_cons_cons {K : Type} [DivisionRing K] (p q : ℚ × K) (rest : List (ℚ × K))
    (t : ℚ) :
    nearEval (p :: q :: rest) t =
      if t ≤ (p.1 + q.1) / 2 then p.2 else nearEval (q :: rest) t := rfl

theorem linEval_head {K : Type} [DivisionRing K] (a : ℚ) (v : K) (rest : List (ℚ × K))
    (h : ∀ p ∈ rest, a ≤ p.1) : linEval ((a, v) :: rest) a = v := by
  cases rest with
  | nil => rw [linEval_single]
  | cons q r =>
    rw [linEval_cons_cons, if_pos (h q (List.mem_cons_self q r))]
    norm_num

theorem nearEval_head {K : Type} [DivisionRing K] (a : ℚ) (v : K) (rest : List (ℚ × K))
    (h : ∀ p ∈ rest, a ≤ p.1) : nearEval ((a, v) :: rest) a = v := by
  cases rest with
  | nil => rw [nearEval_single]
  | cons q r =>
    have hq : a ≤ q.1 := h q (List.mem_cons_self q r)
    rw [nearEval_cons_cons, if_pos (show a ≤ ((a, v).1 + q.1) / 2 by dsimp only; linarith)]

theorem linEval_append_last {K : Type} [DivisionRing K] (t : ℚ) (v : K) :
    ∀ (init : List (ℚ × K)), (∀ p ∈ init, p.1 < t) →
      linEval (init ++ [(t, v)]) t = v := by
  intro init
  induction init with
  | nil =>
    intro _
    rw [List.nil_append, linEval_single]
  | cons p init2 ih =>
    intro hp
    have hpt : p.1 < t := hp p (List.mem_cons_self p init2)
    cases init2 with
    | nil =>
      rw [List.cons_append, List.nil_append, linEval_cons_cons,
        if_pos (show t ≤ ((t, v) : ℚ × K).1 from le_refl t)]
      dsimp only
      rw [div_self (sub_ne_zero.2 (ne_of_gt hpt)), Rat.cast_one, one_mul, add_comm,
        sub_add_cancel]
    | cons q rest =>
      have hqt : q.1 < t := hp q (List.mem_cons_of_mem p (List.mem_cons_self q rest))
      rw [List.cons_append, List.cons_append, linEval_cons_cons,
        if_neg (by linarith : ¬ t ≤ q.1)]
      have h2 := ih (fun r hr => hp r (List.mem_cons_of_mem p hr))
      rw [List.cons_append] at h2
      exact h2

theorem nearEval_append_last {K : Type} [DivisionRing K] (t : ℚ) (v : K) :
    ∀ (init : List (ℚ × K)), (∀ p ∈ init, p.1 < t) →
      nearEval (init ++ [(t, v)]) t = v := by
  intro init
  induction init with
  | nil =>
    intro _
    rw [List.nil_append, nearEval_single]
  | cons p init2 ih =>
    intro hp
    have hpt : p.1 < t := hp p (List.mem_cons_self p init2)
    cases init2 with
    | nil =>
      rw [List.cons_append, List.nil_append, nearEval_cons_cons,
        if_neg (show ¬ t ≤ (p.1 + ((t, v) : ℚ × K).1) / 2 by dsimp only; linarith),
        nearEval_single]
    | cons q rest =>
      have hqt : q.1 < t := hp q (List.mem_cons_of_mem p (List.mem_cons_self q rest))
      rw [List.cons_append, List.cons_append, nearEval_cons_cons,
        if_neg (by linarith : ¬ t ≤ (p.1 + q.1) / 2)]
      have h2 := ih (fun r hr => hp r (List.mem_cons_of_mem p hr))
      rw [List.cons_append] at h2
      exact h2

theorem interpEval_head {K : Type} [DivisionRing K] (kind : InterpKind) (a : ℚ) (v : K)
    (rest : List (ℚ × K)) (h : ∀ p ∈ rest, a ≤ p.1) :
    interpEval kind ((a, v) :: rest) a = v := by
  cases kind
  · exact nearEval_head a v rest h
  · exact linEval_head a v rest h

theorem interpEval_append_last {K : Type} [DivisionRing K] (kind : InterpKind) (t : ℚ) (v : K)
    (init : List (ℚ × K)) (h : ∀ p ∈ init, p.1 < t) :
    interpEval kind (init ++ [(t, v)]) t = v := by
  cases kind
  · exact nearEval_append_last t v init h
  · exact linEval_append_last t v init h

/-- On a run whose times are strictly inside `(0, dl)` — as every `gft` band's
times are — both boundary points get inserted, copying the first and last
values. -/
theorem extendRun_strict {K : Type} [DivisionRing K] (dl x0 : ℚ) (xs : List ℚ)
    (y0 : K) (ys : List K) (h0 : x0 ≠ 0) (hl : xs.getLastD x0 ≠ dl) :
    extendRun dl (x0 :: xs) (y0 :: ys) =
      ((0 :: x0 :: xs) ++ [dl], (y0 :: y0 :: ys) ++ [ys.getLastD y0]) := by
  have hcond : ((0 : ℚ) :: x0 :: xs).getLastD 0 ≠ dl := by
    rw [List.getLastD_cons, List.getLastD_cons]
    exact hl
  simp only [extendRun]
  rw [if_pos (show (x0 :: xs).headD 1 ≠ 0 from h0)]
  simp only [List.headD_cons]
  rw [if_pos hcond]
  rw [List.getLastD_cons, List.getLastD_cons]

/-- C5: for every distinct-frequency run with strictly increasing times lying
strictly inside `(0, data_len)` (as all `gft` band times do), the boundary
points inserted at time `0` and time `data_len` copy the run's first and last
sample values, so interpolating exactly at `t = 0` or `t = data_len` returns
the run's original first and last sample, for both time-axis kinds. -/
theorem C5_boundary_extension {K : Type} [DivisionRing K] :
    ∀ (dl : ℚ) (x : List ℚ) (y : List K) (kind : InterpKind),
    x ≠ [] → y.length = x.length →
    List.Chain' (fun a b : ℚ => a < b) x →
    (∀ t ∈ x, 0 < t ∧ t < dl) →
    interpEval kind ((extendRun dl x y).1.zip (extendRun dl x y).2) 0 = y.headD 0 ∧
    interpEval kind ((extendRun dl x y).1.zip (extendRun dl x y).2) dl = y.getLastD 0 := by
  intro dl x y kind hx hlen hchain hstrict
  cases x with
  | nil => exact absurd rfl hx
  | cons x0 xs =>
  cases y with
  | nil =>
    exfalso
    rw [List.length_nil, List.length_cons] at hlen
    omega
  | cons y0 ys =>
  have hx0 : 0 < x0 ∧ x0 < dl := hstrict x0 (List.mem_cons_self x0 xs)
  have hdl : 0 < dl := lt_trans hx0.1 hx0.2
  have hlast : xs.getLastD x0 < dl := (hstrict _ (List.getLastD_mem_cons xs x0)).2
  rw [extendRun_strict dl x0 xs y0 ys (ne_of_gt hx0.1) (ne_of_lt hlast)]
  have hzlen : ((0 : ℚ) :: x0 :: xs).length = (y0 :: y0 :: ys).length := by
    simp only [List.length_cons] at hlen ⊢
    omega
  have hz1 : ((0 : ℚ) :: x0 :: xs).zip (y0 :: y0 :: ys) =
      (0, y0) :: (x0 :: xs).zip (y0 :: ys) := rfl
  have hz2 : ([dl] : List ℚ).zip [ys.getLastD y0] = [(dl, ys.getLastD y0)] := rfl
  rw [List.zip_append hzlen, hz1, hz2]
  constructor
  · rw [List.cons_append]
    refine interpEval_head kind 0 y0 _ (fun p hp => ?_)
    rcases List.mem_append.1 hp with hp | hp
    · rcases p with ⟨pa, pb⟩
      exact le_of_lt (hstrict pa (List.of_mem_zip hp).1).1
    · rw [List.mem_singleton] at hp
      rw [hp]
      exact le_of_lt hdl
  · refine Eq.trans (interpEval_append_last kind dl (ys.getLastD y0)
      ((0, y0) :: (x0 :: xs).zip (y0 :: ys)) (fun p hp => ?_)) ?_
    · rcases List.mem_cons.1 hp with rfl | hp
      · exact hdl
      · rcases p with ⟨pa, pb⟩
        exact (hstrict pa (List.of_mem_zip hp).1).2
    · rw [List.getLastD_cons]

/-- Witness for C5 on the run with times `[1, 3]`, values `[2, 5]` and
`data_len = 4`. -/
theorem C5_boundary_extension_witness :
    interpEval InterpKind.linear
        ((extendRun 4 [1, 3] ([2, 5] : List ℚ)).1.zip (extendRun 4 [1, 3] ([2, 5] : List ℚ)).2)
        0 = ([2, 5] : List ℚ).headD 0 ∧
    interpEval InterpKind.nearest
        ((extendRun 4 [1, 3] ([2, 5] : List ℚ)).1.zip (extendRun 4 [1, 3] ([2, 5] : List ℚ)).2)
        4 = ([2, 5] : List ℚ).getLastD 0 := by
  constructor
  · exact (C5_boundary_extension 4 [1, 3] [2, 5] InterpKind.linear (List.cons_ne_nil 1 [3]) rfl
      (by rw [List.chain'_cons]; exact ⟨by norm_num, List.chain'_singleton 3⟩)
      (by
        intro t ht
        rcases List.mem_cons.1 ht with rfl | ht
        · exact ⟨by norm_num, by norm_num⟩
        · rw [List.mem_singleton] at ht
          rw [ht]
          exact ⟨by norm_num, by norm_num⟩)).1
  · exact (C5_boundary_extension 4 [1, 3] [2, 5] InterpKind.nearest (List.cons_ne_nil 1 [3]) rfl
      (by rw [List.chain'_cons]; exact ⟨by norm_num, List.chain'_singleton 3⟩)
      (by
        intro t ht
        rcases List.mem_cons.1 ht with rfl | ht
        · exact ⟨by norm_num, by norm_num⟩
        · rw [List.mem_singleton] at ht
          rw [ht]
          exact ⟨by norm_num, by norm_num⟩)).2

/-! ### Interpolation: the target frequency axis and clamping -/

theorem linspace_length {n : ℕ} (h : 2 ≤ n) (a b : ℚ) : (linspace a b n).length = n := by
  unfold linspace
  rw [if_neg (by omega), if_neg (by omega), List.length_map, List.length_range]

theorem linspace_head {n : ℕ} (h : 2 ≤ n) (a b : ℚ) : (linspace a b n).headD 0 = a := by
  unfold linspace
  rw [if_neg (by omega), if_neg (by omega)]
  obtain ⟨m, rfl⟩ : ∃ m, n = m + 2 := ⟨n - 2, by omega⟩
  rw [List.range_succ_eq_map]
  simp

theorem linspace_last {n : ℕ} (h : 2 ≤ n) (a b : ℚ) : (linspace a b n).getLastD 0 = b := by
  unfold linspace
  rw [if_neg (by omega), if_neg (by omega)]
  obtain ⟨m, rfl⟩ : ∃ m, n = m + 2 := ⟨n - 2, by omega⟩
  rw [show m + 2 = (m + 1) + 1 from rfl, List.range_succ, List.map_append,
    List.map_singleton, List.getLastD_concat]
  push_cast
  have hne : (m : ℚ) + 1 ≠ 0 := by positivity
  field_simp

theorem wantedFreqsOf_nonneg {f : List ℤ} (h : 0 ≤ intMin f) (dataLen F : ℕ) :
    wantedFreqsOf f dataLen F = linspace 0 ((dataLen / 2 : ℕ) : ℚ) F := by
  unfold wantedFreqsOf
  rw [if_pos h]

theorem wantedFreqsOf_negative {f : List ℤ} (h : ¬ 0 ≤ intMin f) (dataLen F : ℕ) :
    wantedFreqsOf f dataLen F =
      linspace (-((dataLen / 2 : ℕ) : ℚ)) ((dataLen / 2 : ℕ) : ℚ) F := by
  unfold wantedFreqsOf
  rw [if_neg h]

theorem freqQueries_clamped {f : List ℤ} (hf : f ≠ []) (dataLen F : ℕ) :
    ∀ q ∈ freqQueries f dataLen F,
      ((intMin f : ℤ) : ℚ) ≤ q ∧ q ≤ ((intMax f : ℤ) : ℚ) := by
  intro q hq
  rcases List.mem_map.1 hq with ⟨q0, hq0, rfl⟩
  have hmm : intMin f ≤ intMax f := (intMin_spec f hf).2 _ (intMax_spec f hf).1
  exact ⟨le_min (le_max_right _ _) (Int.cast_le.2 hmm), min_le_right _ _⟩

theorem interpolate_gft_freqAxis {K : Type} [DivisionRing K] (Coords : List (ℤ × ℚ))
    (S : List K) (shape : ℕ × ℕ) (dataLen : ℕ) (kf kt : InterpKind) :
    (interpolate_gft Coords S shape dataLen kf kt).2.1 =
      wantedFreqsOf (uniqFirst (Coords.map Prod.fst)) dataLen shape.1 := rfl

/-- C6: the target frequency axis is `IM_shape[0]` evenly spaced values from
`0` to `⌊data_len/2⌋` when every frequency present is nonnegative, and from
`-⌊data_len/2⌋` to `⌊data_len/2⌋` otherwise (`linspace` hits both endpoints
once at least two points are requested); and the frequency-axis interpolant is
evaluated only at query points clamped into `[min f, max f]`, never
extrapolating beyond the sampled frequencies. -/
theorem C6_freq_axis : ∀ (f : List ℤ) (dataLen F : ℕ),
    (0 ≤ intMin f → wantedFreqsOf f dataLen F = linspace 0 ((dataLen / 2 : ℕ) : ℚ) F) ∧
    (¬ 0 ≤ intMin f → wantedFreqsOf f dataLen F =
      linspace (-((dataLen / 2 : ℕ) : ℚ)) ((dataLen / 2 : ℕ) : ℚ) F) ∧
    (2 ≤ F → ∀ a b : ℚ, (linspace a b F).length = F ∧ (linspace a b F).headD 0 = a ∧
      (linspace a b F).getLastD 0 = b) ∧
    (f ≠ [] → ∀ q ∈ freqQueries f dataLen F,
      ((intMin f : ℤ) : ℚ) ≤ q ∧ q ≤ ((intMax f : ℤ) : ℚ)) ∧
    (∀ {K : Type} [DivisionRing K] (Coords : List (ℤ × ℚ)) (S : List K)
      (shape : ℕ × ℕ) (kf kt : InterpKind),
      uniqFirst (Coords.map Prod.fst) = f →
      (interpolate_gft Coords S shape dataLen kf kt).2.1 = wantedFreqsOf f dataLen shape.1 ∧
      ∀ col ∈ (interpolate_gft Coords S shape dataLen kf kt).2.2,
        ∃ g : ℚ → K, col = (freqQueries f dataLen shape.1).map g) := by
  intro f dataLen F
  refine ⟨fun h => wantedFreqsOf_nonneg h dataLen F,
    fun h => wantedFreqsOf_negative h dataLen F,
    fun hF a b => ⟨linspace_length hF a b, linspace_head hF a b, linspace_last hF a b⟩,
    fun hf => freqQueries_clamped hf dataLen F, ?_⟩
  intro K _ Coords S shape kf kt huf
  constructor
  · rw [interpolate_gft_freqAxis, huf]
  · intro col hcol
    have hIM : ∃ L : List (ℤ × List K),
        (interpolate_gft Coords S shape dataLen kf kt).2.2 =
          (List.range shape.2).map (fun k =>
            (freqQueries (uniqFirst (Coords.map Prod.fst)) dataLen shape.1).map (fun q =>
              interpEval kf (L.map (fun p => ((p.1 : ℚ), p.2.getD k 0))) q)) := ⟨_, rfl⟩
    rcases hIM with ⟨L, hL⟩
    rw [hL] at hcol
    rcases List.mem_map.1 hcol with ⟨k, hk, rfl⟩
    exact ⟨_, by rw [huf]⟩

/-- Witness for C6 at `f = [0, 1]`, `data_len = 4`, `F = 3`. -/
theorem C6_freq_axis_witness :
    wantedFreqsOf [0, 1] 4 3 = linspace 0 ((4 / 2 : ℕ) : ℚ) 3 ∧
    (linspace 0 ((4 / 2 : ℕ) : ℚ) 3).headD 0 = 0 ∧
    (linspace 0 ((4 / 2 : ℕ) : ℚ) 3).getLastD 0 = ((4 / 2 : ℕ) : ℚ) ∧
    ∀ q ∈ freqQueries [0, 1] 4 3,
      ((intMin [0, 1] : ℤ) : ℚ) ≤ q ∧ q ≤ ((intMax [0, 1] : ℤ) : ℚ) :=
  ⟨(C6_freq_axis [0, 1] 4 3).1 (by decide),
    ((C6_freq_axis [0, 1] 4 3).2.2.1 (by norm_num) 0 ((4 / 2 : ℕ) : ℚ)).2.1,
    ((C6_freq_axis [0, 1] 4 3).2.2.1 (by norm_num) 0 ((4 / 2 : ℕ) : ℚ)).2.2,
    (C6_freq_axis [0, 1] 4 3).2.2.2.1 (by decide)⟩

end Meet
